import Mathlib

/-!
# danikarik/jwt : the `Token` and `Header` data model (`jwt.go`)

A shallow embedding of `jwt.go`.

* Go `[]byte` values are modelled by `Slice`: the elements of the backing array
  from the first element of the slice up to its capacity, together with the
  length of the slice. A slice expression `s[low:high]` is checked against the
  capacity, as the Go language specification prescribes, and is `none` when Go
  panics.
* Go `int` is the 64-bit two's complement integer (`GoInt`), `dot + 1` wraps.
* Go `string` values are immutable byte sequences (`GoString`).
* Methods have pointer receivers in the source; the embedding takes the
  pointed-to value (a non-nil receiver).
* Where sharing of backing arrays matters, slices are `View`s (address, offset,
  length, capacity) into a `Heap`, and the token is a `TokenRef`; `View.load` and
  `TokenRef.load` give the `Slice` and the `Token` they denote, and the accessors
  of both levels agree (`TokenRef.load_accessors`, `TokenRef.DecodeClaims_load`).
* `json.Unmarshal` is a parameter: a function of the claims bytes and the target,
  and on the token in memory a function that may also write the memory.
-/

namespace Jwt

/-! ## Bytes, strings and machine integers -/

/-- A Go `byte`. -/
abbrev Byte := Fin 256

/-- A Go `string`: an immutable sequence of bytes. -/
abbrev GoString := List Byte

/-- The bytes of an ASCII literal of the source. -/
def ascii (s : String) : GoString :=
  s.toList.map (fun c => ⟨c.toNat % 256, Nat.mod_lt _ (by decide)⟩)

/-- The delimiter byte `'.'`. -/
def dot : Byte := 46

/-- Two's complement reduction of an integer to the range of Go `int` (64 bit). -/
def wrapInt (x : Int) : Int := (x + 2 ^ 63) % 2 ^ 64 - 2 ^ 63

/-- A Go `int` (64 bit). -/
structure GoInt where
  val : Int
  lo : -(2 : Int) ^ 63 ≤ val
  hi : val < (2 : Int) ^ 63
deriving DecidableEq

/-- Conversion to `int`, wrapping around. -/
def GoInt.ofInt (x : Int) : GoInt :=
  ⟨wrapInt x,
    by
      unfold wrapInt
      have h := Int.emod_nonneg (x + 2 ^ 63) (show ((2 : Int) ^ 64) ≠ 0 by norm_num)
      omega,
    by
      unfold wrapInt
      have h := Int.emod_lt_of_pos (x + 2 ^ 63) (show (0 : Int) < 2 ^ 64 by norm_num)
      omega⟩

/-- The zero value of `int`. -/
def GoInt.zero : GoInt := ⟨0, by norm_num, by norm_num⟩

/-- The expression `i + 1` on `int`. -/
def GoInt.succ (i : GoInt) : GoInt := GoInt.ofInt (i.val + 1)

/-! ## Slices -/

/-- A Go `[]byte`. `arr` holds the backing array from the first element of the
slice to the end of its capacity, `len` is the length of the slice. -/
structure Slice where
  arr : List Byte
  len : Nat
  len_le : len ≤ arr.length
  cap_lt : (arr.length : Int) < 2 ^ 63
deriving DecidableEq

namespace Slice

/-- Builtin `cap(s)`. -/
def cap (s : Slice) : Nat := s.arr.length

/-- The elements of the slice, `s[0]` to `s[len(s)-1]`. -/
def bytes (s : Slice) : List Byte := s.arr.take s.len

/-- The nil slice, the zero value of `[]byte`. -/
def nil : Slice := ⟨[], 0, Nat.le_refl _, by norm_num⟩

/-- Builtin `len(s)` as an `int`. -/
def lenInt (s : Slice) : GoInt :=
  ⟨(s.len : Int), by have := Int.ofNat_nonneg s.len; omega,
    by have h1 := s.len_le; have h2 := s.cap_lt; omega⟩

/-- The full slice expression `s[low:high]`: defined when
`0 <= low <= high <= cap(s)`, a run-time panic (`none`) otherwise. -/
def slice (s : Slice) (low high : GoInt) : Option Slice :=
  if h : 0 ≤ low.val ∧ low.val ≤ high.val ∧ high.val ≤ (s.cap : Int) then
    some
      { arr := s.arr.drop low.val.toNat
        len := (high.val - low.val).toNat
        len_le := by
          have hc : s.cap = s.arr.length := rfl
          rw [List.length_drop]
          omega
        cap_lt := by
          have h2 := s.cap_lt
          rw [List.length_drop]
          omega }
  else none

/-- The expression `s[:high]`. -/
def sliceTo (s : Slice) (high : GoInt) : Option Slice := s.slice GoInt.zero high

/-- The expression `s[low:]`, whose upper bound is `len(s)`. -/
def sliceFrom (s : Slice) (low : GoInt) : Option Slice := s.slice low s.lenInt

/-- The index expression `s[i]`: defined when `0 <= i < len(s)`. -/
def index (s : Slice) (i : GoInt) : Option Byte :=
  if 0 ≤ i.val ∧ i.val < (s.len : Int) then s.arr.get? i.val.toNat else none

/-- A slice of exactly the given bytes (capacity equal to length). -/
def ofBytes (l : List Byte) (h : (l.length : Int) < 2 ^ 63) : Slice :=
  ⟨l, l.length, Nat.le_refl _, h⟩

end Slice

/-- The conversion `string(b)` of a byte slice: a copy of its elements. -/
def stringOfBytes (b : Slice) : GoString := b.bytes

/-! ## Header -/

/-- Modelled from the spec: the declaration of the type `Algorithm` is not part
of `jwt.go`; the spec describes it as a string identifier and the source
converts it with `string(h.Algorithm)`. -/
abbrev Algorithm := GoString

/-- The struct `Header`. -/
structure Header where
  Algorithm : Algorithm
  /-- The field `Type` of the source (a reserved word here). -/
  Typ : GoString
  ContentType : GoString
deriving DecidableEq

/-- A Go `error` value: a message and, for a wrapping error, its cause. -/
inductive GoError where
  | leaf (msg : GoString)
  | wrapped (msg : GoString) (cause : GoError)
deriving DecidableEq

namespace GoError

/-- Method `Error()`. -/
def Error : GoError → GoString
  | leaf m => m
  | wrapped m _ => m

/-- Function `errors.Unwrap`. -/
def Unwrap : GoError → Option GoError
  | leaf _ => none
  | wrapped _ c => some c

end GoError

/-- The call `fmt.Errorf(format ++ "%w", err)` for a format prefix without verbs:
the message is the prefix followed by `err.Error()`, the cause is `err`. -/
def errorfW (pfx : GoString) (err : GoError) : GoError :=
  GoError.wrapped (pfx ++ err.Error) err

namespace Header

/-- Method `Header.MarshalJSON`: the successive `buf.WriteString` calls, then
`buf.Bytes(), nil`. -/
def MarshalJSON (h : Header) : GoString × Option GoError :=
  let buf : List Byte := []
  let buf := buf ++ ascii "\x7b\"alg\":\""
  let buf := buf ++ h.Algorithm
  let buf := if h.Typ ≠ [] then (buf ++ ascii "\",\"typ\":\"") ++ h.Typ else buf
  let buf := if h.ContentType ≠ [] then (buf ++ ascii "\",\"cty\":\"") ++ h.ContentType else buf
  let buf := buf ++ ascii "\"\x7d"
  (buf, none)

/-- Method `Header.String`: `b, _ := h.MarshalJSON(); return string(b)`. -/
def String (h : Header) : GoString := (h.MarshalJSON).1

end Header

/-! ## Token -/

/-- The struct `Token`. -/
structure Token where
  raw : Slice
  dot1 : GoInt
  dot2 : GoInt
  header : Header
  claims : Slice
  signature : Slice
deriving DecidableEq

namespace Token

/-- Method `Token.String`: `string(t.raw)`. -/
def String (t : Token) : GoString := stringOfBytes t.raw

/-- Method `Token.Bytes`: `t.raw`. -/
def Bytes (t : Token) : Slice := t.raw

/-- Method `Token.DecodeClaims`. The call `json.Unmarshal(t.claims, into)` is the
parameter `unmarshal`: from the bytes and the target it gives the error (or
`none` for `nil`) and the target as it leaves it. -/
def DecodeClaims {τ : Type} (unmarshal : List Byte → τ → Option GoError × τ)
    (t : Token) (into : τ) : Option GoError × τ :=
  let r := unmarshal t.claims.bytes into
  match r.1 with
  | some err => (some (errorfW (ascii "jwt: claims are not valid: ") err), r.2)
  | none => (none, r.2)

/-- Method `Token.Header`. -/
def Header (t : Token) : Jwt.Header := t.header

/-- Method `Token.Claims`. -/
def Claims (t : Token) : Slice := t.claims

/-- Method `Token.Signature`. -/
def Signature (t : Token) : Slice := t.signature

/-- Method `Token.HeaderPart`: `t.raw[:t.dot1]`. -/
def HeaderPart (t : Token) : Option Slice := t.raw.sliceTo t.dot1

/-- Method `Token.ClaimsPart`: `t.raw[t.dot1+1 : t.dot2]`. -/
def ClaimsPart (t : Token) : Option Slice := t.raw.slice t.dot1.succ t.dot2

/-- Method `Token.PayloadPart`: `t.raw[:t.dot2]`. -/
def PayloadPart (t : Token) : Option Slice := t.raw.sliceTo t.dot2

/-- Method `Token.SignaturePart`: `t.raw[t.dot2+1:]`. -/
def SignaturePart (t : Token) : Option Slice := t.raw.sliceFrom t.dot2.succ

end Token

/-- The zero value `Token{}`. -/
def zeroToken : Token :=
  ⟨Slice.nil, GoInt.zero, GoInt.zero, ⟨[], [], []⟩, Slice.nil, Slice.nil⟩

/-- The token over the bytes `l` with the given offsets and decoded parts. -/
def mkToken (l : List Byte) (h : (l.length : Int) < 2 ^ 63) (d1 d2 : Int) : Token :=
  ⟨Slice.ofBytes l h, GoInt.ofInt d1, GoInt.ofInt d2, ⟨[], [], []⟩, Slice.nil, Slice.nil⟩

/-- A decode primitive that accepts the text `{}` only. -/
def sampleUnmarshal (b : List Byte) (into : Unit) : Option GoError × Unit :=
  if b = ascii "\x7b\x7d" then (none, into)
  else (some (GoError.leaf (ascii "invalid character")), into)

/-- The offset invariant of the data model, in the spec's words:
`0 <= dot1 < dot2 < len(raw)` and `raw[dot1] == raw[dot2] == '.'`. -/
def Token.OffsetInvariant (t : Token) : Prop :=
  0 ≤ t.dot1.val ∧ t.dot1.val < t.dot2.val ∧ t.dot2.val < (t.raw.len : Int) ∧
    t.raw.index t.dot1 = some dot ∧ t.raw.index t.dot2 = some dot

instance (t : Token) : Decidable t.OffsetInvariant := by
  unfold Token.OffsetInvariant
  infer_instance

/-! ## Memory: byte slices as views of backing arrays -/

/-- The backing arrays of the byte slices of the program, by address. -/
abbrev Heap := Nat → List Byte

/-- A `[]byte` value as Go stores it: a pointer to an element of a backing array
(the address `base` of the array and the offset `off` in it), a length and a
capacity. Copying the value copies these four words, not the elements. -/
structure View where
  base : Nat
  off : Nat
  len : Nat
  cap : Nat
deriving DecidableEq

namespace View

/-- The elements `v[0]` to `v[len(v)-1]` in the memory `m`. -/
def bytes (m : Heap) (v : View) : List Byte := ((m v.base).drop v.off).take v.len

/-- The view lies within its backing array. -/
def InHeap (m : Heap) (v : View) : Prop :=
  v.len ≤ v.cap ∧ v.off + v.cap ≤ (m v.base).length ∧ ((m v.base).length : Int) < 2 ^ 63

instance (m : Heap) (v : View) : Decidable (v.InHeap m) := by
  unfold InHeap
  infer_instance

/-- The slice, with its contents, that the view denotes in the memory `m`. -/
def load (m : Heap) (v : View) : Option Slice :=
  if h : v.len ≤ v.cap ∧ v.off + v.cap ≤ (m v.base).length ∧
      ((m v.base).length : Int) < 2 ^ 63 then
    some
      { arr := ((m v.base).drop v.off).take v.cap
        len := v.len
        len_le := by
          rw [List.length_take, List.length_drop]
          omega
        cap_lt := by
          rw [List.length_take, List.length_drop]
          omega }
  else none

/-- The slice expression `v[low:high]`: the result points into the same backing
array. -/
def slice (v : View) (low high : Int) : Option View :=
  if 0 ≤ low ∧ low ≤ high ∧ high ≤ (v.cap : Int) then
    some ⟨v.base, v.off + low.toNat, (high - low).toNat, v.cap - low.toNat⟩
  else none

/-- The expression `v[:high]`. -/
def sliceTo (v : View) (high : GoInt) : Option View := v.slice 0 high.val

/-- The expression `v[low:]`, whose upper bound is `len(v)`. -/
def sliceFrom (v : View) (low : GoInt) : Option View := v.slice low.val v.len

/-- The assignment `v[i] = b`: the memory after it, a run-time panic (`none`) when
the index is out of range. -/
def assign (m : Heap) (v : View) (i : Int) (b : Byte) : Option Heap :=
  if 0 ≤ i ∧ i < (v.len : Int) then
    some (Function.update m v.base ((m v.base).set (v.off + i.toNat) b))
  else none

end View

/-- The struct `Token` in memory: the slice fields are views of backing arrays. -/
structure TokenRef where
  raw : View
  dot1 : GoInt
  dot2 : GoInt
  header : Header
  claims : View
  signature : View
deriving DecidableEq

namespace TokenRef

/-- Method `Token.String`: `string(t.raw)`, a copy of the elements. -/
def String (m : Heap) (t : TokenRef) : GoString := t.raw.bytes m

/-- Method `Token.Bytes`: `t.raw`. -/
def Bytes (t : TokenRef) : View := t.raw

/-- Method `Token.Claims`: `t.claims`. -/
def Claims (t : TokenRef) : View := t.claims

/-- Method `Token.Signature`: `t.signature`. -/
def Signature (t : TokenRef) : View := t.signature

/-- Method `Token.HeaderPart`: `t.raw[:t.dot1]`. -/
def HeaderPart (t : TokenRef) : Option View := t.raw.sliceTo t.dot1

/-- Method `Token.ClaimsPart`: `t.raw[t.dot1+1 : t.dot2]`. -/
def ClaimsPart (t : TokenRef) : Option View := t.raw.slice t.dot1.succ.val t.dot2.val

/-- Method `Token.PayloadPart`: `t.raw[:t.dot2]`. -/
def PayloadPart (t : TokenRef) : Option View := t.raw.sliceTo t.dot2

/-- Method `Token.SignaturePart`: `t.raw[t.dot2+1:]`. -/
def SignaturePart (t : TokenRef) : Option View := t.raw.sliceFrom t.dot2.succ

/-- The token, with the contents of its buffers, that the struct denotes in the
memory `m`. -/
def load (m : Heap) (t : TokenRef) : Option Token :=
  match t.raw.load m, t.claims.load m, t.signature.load m with
  | some r, some c, some s => some ⟨r, t.dot1, t.dot2, t.header, c, s⟩
  | _, _, _ => none

/-- Method `Token.DecodeClaims` on the token in memory. The call
`json.Unmarshal(t.claims, into)` is the parameter `unmarshal`: from the bytes of
`t.claims`, the memory and the target it gives the error (or `none` for `nil`), the
memory after its writes and the target as it leaves it. The method writes nothing
else. -/
def DecodeClaims {τ : Type} (unmarshal : List Byte → Heap → τ → Option GoError × (Heap × τ))
    (m : Heap) (t : TokenRef) (into : τ) : Option GoError × (Heap × τ) :=
  let r := unmarshal (t.claims.bytes m) m into
  match r.1 with
  | some err => (some (errorfW (ascii "jwt: claims are not valid: ") err), r.2)
  | none => (none, r.2)

end TokenRef

/-- The decode primitive writes no backing array but those of its target;
`owns x a` says that the array at address `a` belongs to the target `x`. -/
def WritesTargetOnly {τ : Type} (unmarshal : List Byte → Heap → τ → Option GoError × (Heap × τ))
    (owns : τ → Nat → Prop) : Prop :=
  ∀ d m x a, ¬ owns x a → (unmarshal d m x).2.1 a = m a

/-- The outcome of the decode primitive, its error and the target as it leaves it,
is determined by the bytes and the target it is given. -/
def OutcomeFromInput {τ : Type}
    (unmarshal : List Byte → Heap → τ → Option GoError × (Heap × τ)) : Prop :=
  ∀ d m1 m2 x, (unmarshal d m1 x).1 = (unmarshal d m2 x).1 ∧
    (unmarshal d m1 x).2.2 = (unmarshal d m2 x).2.2

/-- A decode primitive standing for `json.Unmarshal` on a target `&b` with `b` a
`[]byte`: for the JSON array `[88,89]` it stores 88 and 89 in `b[0]` and `b[1]` (the
decoder fills the backing array of `b` in place when its capacity suffices) and
gives `b` the length 2; on any other text it fails and writes nothing, and so
does this stand-in for a target of capacity below 2. -/
def sampleUnmarshalBytes (data : List Byte) (m : Heap) (b : View) :
    Option GoError × (Heap × View) :=
  if data = ascii "[88,89]" ∧ 2 ≤ b.cap then
    (none, (Function.update m b.base (((m b.base).set b.off 88).set (b.off + 1) 89),
      { b with len := 2 }))
  else (some (GoError.leaf (ascii "invalid character")), (m, b))

/-- A memory with the token `ab.cd.ef` at address 0, its decoded claims `[88,89]` at
address 1, its decoded signature at address 2 and a buffer of the caller at
address 3. -/
def arrayHeap : Heap := fun a =>
  if a = 0 then ascii "ab.cd.ef" else if a = 1 then ascii "[88,89]"
  else if a = 2 then [1, 2, 3] else if a = 3 then [0, 0, 0, 0] else []

/-- The token of `arrayHeap`. -/
def arrayTokenRef : TokenRef :=
  ⟨⟨0, 0, 8, 8⟩, GoInt.ofInt 2, GoInt.ofInt 5, ⟨ascii "HS256", [], []⟩, ⟨1, 0, 7, 7⟩,
    ⟨2, 0, 3, 3⟩⟩

/-- A memory with the token `ab.cd.ef` at address 0, its decoded claims at
address 1 and its decoded signature at address 2. -/
def sampleHeap : Heap := fun a =>
  if a = 0 then ascii "ab.cd.ef" else if a = 1 then ascii "\x7b\x7d" else if a = 2 then [1, 2, 3]
  else []

/-- The token of `sampleHeap`. -/
def sampleTokenRef : TokenRef :=
  ⟨⟨0, 0, 8, 8⟩, GoInt.ofInt 2, GoInt.ofInt 5, ⟨ascii "HS256", [], []⟩, ⟨1, 0, 2, 2⟩,
    ⟨2, 0, 3, 3⟩⟩

/-! ## Reference notions of the specification -/

/-- The header encoding assembled from the four steps of the specification, read
literally: step 1 with its closing quote, the optional members of steps 2 and 3,
and the closing two characters of step 4. -/
def specFourSteps (h : Header) : GoString :=
  (ascii "\x7b\"alg\":\"" ++ h.Algorithm ++ ascii "\"") ++
    (if h.Typ ≠ [] then ascii ",\"typ\":\"" ++ h.Typ ++ ascii "\"" else []) ++
    (if h.ContentType ≠ [] then ascii ",\"cty\":\"" ++ h.ContentType ++ ascii "\"" else []) ++
    ascii "\"\x7d"

/-- A character of a decoded JSON string: a byte of the text, or the code unit
written by an escape `\uXXXX`. -/
inductive JChar where
  | byte (b : Byte)
  | unit (u : Nat)
deriving DecidableEq

/-- A decoded JSON string. -/
abbrev JString := List JChar

/-- The JSON string with the given bytes as its characters. -/
def JString.ofBytes (s : GoString) : JString := s.map JChar.byte

/-- What a UTF-8 decoder expects inside a character: the next byte in the range
`lo` to `hi`, then `more` continuation bytes `0x80` to `0xBF`. -/
structure Utf8Tail where
  lo : Nat
  hi : Nat
  more : Nat
deriving DecidableEq

/-- The first byte of a UTF-8 character (RFC 3629, section 4): `some none` for an
ASCII byte, the bytes expected after the first byte of a longer character, `none`
for a byte that starts no character (`0x80` to `0xC1`, `0xF5` to `0xFF`). The
ranges exclude overlong forms, surrogates and code points above U+10FFFF. -/
def utf8Lead (b : Byte) : Option (Option Utf8Tail) :=
  if b.val < 0x80 then some none
  else if 0xC2 ≤ b.val ∧ b.val ≤ 0xDF then some (some ⟨0x80, 0xBF, 0⟩)
  else if b.val = 0xE0 then some (some ⟨0xA0, 0xBF, 1⟩)
  else if (0xE1 ≤ b.val ∧ b.val ≤ 0xEC) ∨ b.val = 0xEE ∨ b.val = 0xEF then
    some (some ⟨0x80, 0xBF, 1⟩)
  else if b.val = 0xED then some (some ⟨0x80, 0x9F, 1⟩)
  else if b.val = 0xF0 then some (some ⟨0x90, 0xBF, 2⟩)
  else if 0xF1 ≤ b.val ∧ b.val ≤ 0xF3 then some (some ⟨0x80, 0xBF, 2⟩)
  else if b.val = 0xF4 then some (some ⟨0x80, 0x8F, 2⟩)
  else none

/-- One byte of UTF-8: between characters (`none`) a first byte, inside a
character the expected byte. -/
def utf8Step : Option Utf8Tail → Byte → Option (Option Utf8Tail)
  | none, b => utf8Lead b
  | some t, b =>
    if t.lo ≤ b.val ∧ b.val ≤ t.hi then
      some (if t.more = 0 then none else some ⟨0x80, 0xBF, t.more - 1⟩)
    else none

/-- The bytes are well-formed UTF-8: a sequence of complete characters. -/
def utf8Valid (s : GoString) : Prop := s.foldlM utf8Step none = some none

instance (s : GoString) : Decidable (utf8Valid s) := by
  unfold utf8Valid
  infer_instance

/-- Position inside a JSON string: between characters of plain text, after a
backslash, inside `\uXXXX` with the hexadecimal digits read so far, or inside a
UTF-8 character of several bytes. -/
inductive Esc where
  | no
  | bs
  | u (digits : List Nat)
  | utf (t : Utf8Tail)
deriving DecidableEq

/-- The position in the string for a state of the UTF-8 decoder. -/
def Esc.ofUtf8 : Option Utf8Tail → Esc
  | none => Esc.no
  | some t => Esc.utf t

/-- States of the recogniser of JSON objects whose member values are strings
(RFC 8259 grammar; the text of a string is well-formed UTF-8, section 8.1).
`ms` are the members read so far. -/
inductive JState where
  | start
  | first
  | str (ms : List (JString × JString)) (key : Option JString) (cur : JString) (e : Esc)
  | colon (ms : List (JString × JString)) (key : JString)
  | value (ms : List (JString × JString)) (key : JString)
  | next (ms : List (JString × JString))
  | key (ms : List (JString × JString))
  | done (ms : List (JString × JString))
deriving DecidableEq

/-- JSON insignificant whitespace: space, tab, line feed, carriage return. -/
def isWs (b : Byte) : Bool := b = 32 || b = 9 || b = 10 || b = 13

/-- The value of a hexadecimal digit. -/
def hexVal (b : Byte) : Option Nat :=
  if 48 ≤ b.val ∧ b.val ≤ 57 then some (b.val - 48)
  else if 97 ≤ b.val ∧ b.val ≤ 102 then some (b.val - 87)
  else if 65 ≤ b.val ∧ b.val ≤ 70 then some (b.val - 55)
  else none

/-- The byte denoted by a two-character escape: the character after the backslash
is one of `"`, `\`, `/`, `b`, `f`, `n`, `r`, `t`. -/
def simpleEscape (b : Byte) : Option Byte :=
  if b = 34 then some 34
  else if b = 92 then some 92
  else if b = 47 then some 47
  else if b = 98 then some 8
  else if b = 102 then some 12
  else if b = 110 then some 10
  else if b = 114 then some 13
  else if b = 116 then some 9
  else none

/-- The state after the closing quote of a string: a key awaits its colon, a
value completes a member. -/
def closeStr (ms : List (JString × JString)) (key : Option JString) (cur : JString) : JState :=
  match key with
  | none => JState.colon ms cur
  | some k => JState.next (ms ++ [(k, cur)])

/-- One byte of input; `none` when the byte is not allowed in the state. -/
def jstep : JState → Byte → Option JState
  | JState.start, b =>
    if isWs b then some JState.start else if b = 123 then some JState.first else none
  | JState.first, b =>
    if isWs b then some JState.first
    else if b = 34 then some (JState.str [] none [] Esc.no)
    else if b = 125 then some (JState.done [])
    else none
  | JState.str ms key cur Esc.no, b =>
    if b = 34 then some (closeStr ms key cur)
    else if b = 92 then some (JState.str ms key cur Esc.bs)
    else if b.val < 32 then none
    else (utf8Lead b).map (fun u => JState.str ms key (cur ++ [JChar.byte b]) (Esc.ofUtf8 u))
  | JState.str ms key cur (Esc.utf t), b =>
    (utf8Step (some t) b).map
      (fun u => JState.str ms key (cur ++ [JChar.byte b]) (Esc.ofUtf8 u))
  | JState.str ms key cur Esc.bs, b =>
    if b = 117 then some (JState.str ms key cur (Esc.u []))
    else (simpleEscape b).map (fun c => JState.str ms key (cur ++ [JChar.byte c]) Esc.no)
  | JState.str ms key cur (Esc.u ds), b =>
    match hexVal b with
    | none => none
    | some d =>
      if ds.length = 3 then
        some (JState.str ms key (cur ++ [JChar.unit ((ds ++ [d]).foldl (fun a x => 16 * a + x) 0)])
          Esc.no)
      else some (JState.str ms key cur (Esc.u (ds ++ [d])))
  | JState.colon ms k, b =>
    if isWs b then some (JState.colon ms k) else if b = 58 then some (JState.value ms k) else none
  | JState.value ms k, b =>
    if isWs b then some (JState.value ms k)
    else if b = 34 then some (JState.str ms (some k) [] Esc.no)
    else none
  | JState.next ms, b =>
    if isWs b then some (JState.next ms)
    else if b = 44 then some (JState.key ms)
    else if b = 125 then some (JState.done ms)
    else none
  | JState.key ms, b =>
    if isWs b then some (JState.key ms)
    else if b = 34 then some (JState.str ms none [] Esc.no)
    else none
  | JState.done ms, b => if isWs b then some (JState.done ms) else none

/-- The members, in order, of a text that is a well-formed JSON object with
string values; `none` when the text is not one (so when it is not UTF-8). -/
def parseObject (text : GoString) : Option (List (JString × JString)) :=
  match text.foldlM jstep JState.start with
  | some (JState.done ms) => some ms
  | _ => none

/-- The members the specification gives the encoding of a header: `alg`, then
`typ` and `cty` when non-empty. -/
def specMembers (h : Header) : List (JString × JString) :=
  [(JString.ofBytes (ascii "alg"), JString.ofBytes h.Algorithm)] ++
    (if h.Typ ≠ [] then [(JString.ofBytes (ascii "typ"), JString.ofBytes h.Typ)] else []) ++
    (if h.ContentType ≠ [] then
      [(JString.ofBytes (ascii "cty"), JString.ofBytes h.ContentType)] else [])

/-- A string that JSON writes as it is between quotes: no quote, no backslash,
no control byte. -/
def Plain (s : GoString) : Prop := ∀ b ∈ s, b ≠ 34 ∧ b ≠ 92 ∧ 32 ≤ b.val

instance (s : GoString) : Decidable (Plain s) := by
  unfold Plain
  infer_instance

/-! ## Lemmas on slices -/

theorem wrapInt_eq (x : Int) (h1 : -(2 : Int) ^ 63 ≤ x) (h2 : x < (2 : Int) ^ 63) :
    wrapInt x = x := by
  unfold wrapInt
  rw [Int.emod_eq_of_lt (by omega) (by omega)]
  omega

theorem GoInt.succ_val (i : GoInt) (h : i.val + 1 < (2 : Int) ^ 63) :
    i.succ.val = i.val + 1 := by
  have h1 := i.lo
  show wrapInt (i.val + 1) = i.val + 1
  exact wrapInt_eq _ (by omega) h

theorem Slice.length_bytes (s : Slice) : s.bytes.length = s.len := by
  have h := s.len_le
  simp [Slice.bytes, h]

theorem Slice.len_lt (s : Slice) : (s.len : Int) < 2 ^ 63 := by
  have h1 := s.len_le
  have h2 := s.cap_lt
  omega

theorem List.take_drop_take_of_le {α : Type} (l : List α) (a b n : Nat) (hb : b ≤ n) :
    ((l.drop a).take (b - a)) = ((l.take n).drop a).take (b - a) := by
  rw [List.drop_take, List.take_take]
  congr 1
  omega

/-- A slice expression with `0 <= low <= high <= len(s)` is defined and selects
the elements `low` to `high - 1`. -/
theorem Slice.slice_of_le (s : Slice) (low high : GoInt) (a b : Nat)
    (ha : low.val = a) (hb : high.val = b) (hab : a ≤ b) (hbl : b ≤ s.len) :
    ∃ r, s.slice low high = some r ∧ r.bytes = (s.bytes.drop a).take (b - a) := by
  have hl := s.len_le
  have hc : s.cap = s.arr.length := rfl
  have hcond : 0 ≤ low.val ∧ low.val ≤ high.val ∧ high.val ≤ (s.cap : Int) := by
    rw [ha, hb]; omega
  refine ⟨_, dif_pos hcond, ?_⟩
  have e1 : low.val.toNat = a := by rw [ha]; simp
  have e2 : (high.val - low.val).toNat = b - a := by rw [ha, hb]; omega
  show List.take (high.val - low.val).toNat (List.drop low.val.toNat s.arr) = _
  rw [e1, e2]
  exact List.take_drop_take_of_le s.arr a b s.len hbl

theorem Slice.index_of_lt (s : Slice) (i : GoInt) (a : Nat) (ha : i.val = a)
    (hlt : a < s.len) : s.index i = s.bytes.get? a := by
  have hcond : 0 ≤ i.val ∧ i.val < (s.len : Int) := by rw [ha]; omega
  have e1 : i.val.toNat = a := by rw [ha]; simp
  unfold Slice.index
  rw [if_pos hcond, e1]
  simp [Slice.bytes, List.getElem?_take, hlt]

/-- The four segment accessors on a token with `0 <= dot1 < dot2 < len(raw)`. -/
theorem Token.parts (t : Token) (d1 d2 : Nat) (h1 : t.dot1.val = d1) (h2 : t.dot2.val = d2)
    (h12 : d1 < d2) (h2l : d2 < t.raw.len) :
    ∃ hp cp pp sp, t.HeaderPart = some hp ∧ t.ClaimsPart = some cp ∧
      t.PayloadPart = some pp ∧ t.SignaturePart = some sp ∧
      hp.bytes = t.raw.bytes.take d1 ∧
      cp.bytes = (t.raw.bytes.drop (d1 + 1)).take (d2 - (d1 + 1)) ∧
      pp.bytes = t.raw.bytes.take d2 ∧
      sp.bytes = t.raw.bytes.drop (d2 + 1) := by
  have hlen := t.raw.len_lt
  have hs1 : t.dot1.succ.val = ((d1 + 1 : Nat) : Int) := by
    rw [GoInt.succ_val _ (by omega), h1]; simp
  have hs2 : t.dot2.succ.val = ((d2 + 1 : Nat) : Int) := by
    rw [GoInt.succ_val _ (by omega), h2]; simp
  obtain ⟨hp, e1, b1⟩ := t.raw.slice_of_le GoInt.zero t.dot1 0 d1 rfl h1 (by omega) (by omega)
  obtain ⟨cp, e2, b2⟩ := t.raw.slice_of_le t.dot1.succ t.dot2 (d1 + 1) d2 hs1 h2 (by omega)
    (by omega)
  obtain ⟨pp, e3, b3⟩ := t.raw.slice_of_le GoInt.zero t.dot2 0 d2 rfl h2 (by omega) (by omega)
  obtain ⟨sp, e4, b4⟩ := t.raw.slice_of_le t.dot2.succ t.raw.lenInt (d2 + 1) t.raw.len hs2 rfl
    (by omega) (Nat.le_refl _)
  refine ⟨hp, cp, pp, sp, e1, e2, e3, e4, ?_, b2, ?_, ?_⟩
  · simpa using b1
  · simpa using b3
  · rw [b4]
    apply List.take_of_length_le
    rw [List.length_drop, Slice.length_bytes]

/-- The first `d2` elements of a sequence, cut at a position `d1 < d2`. -/
theorem List.take_cut {α : Type} (l : List α) (x : α) (d1 d2 : Nat) (h12 : d1 < d2)
    (hx : l.get? d1 = some x) :
    l.take d2 = l.take d1 ++ [x] ++ (l.drop (d1 + 1)).take (d2 - (d1 + 1)) := by
  have a1 : l.take (d1 + 1) = l.take d1 ++ [x] := by
    rw [List.take_succ]
    simp [← List.get?_eq_getElem?, hx]
  have a2 : l.take d2 = l.take (d1 + 1) ++ (l.drop (d1 + 1)).take (d2 - (d1 + 1)) := by
    have : d2 = (d1 + 1) + (d2 - (d1 + 1)) := by omega
    conv_lhs => rw [this]
    rw [List.take_add]
  rw [a2, a1]

/-- A sequence cut at two positions `d1 < d2`. -/
theorem List.cut_two {α : Type} (l : List α) (x y : α) (d1 d2 : Nat) (h12 : d1 < d2)
    (hx : l.get? d1 = some x) (hy : l.get? d2 = some y) :
    l = l.take d1 ++ [x] ++ (l.drop (d1 + 1)).take (d2 - (d1 + 1)) ++ [y] ++ l.drop (d2 + 1) := by
  have e1 := List.take_cut l x d1 d2 h12 hx
  have hy0 := hy
  rw [List.get?_eq_some] at hy
  obtain ⟨hd2, hy⟩ := hy
  have e2 : l.drop d2 = [y] ++ l.drop (d2 + 1) := by
    rw [List.drop_eq_getElem_cons hd2]
    simp [← hy, List.get_eq_getElem]
  rw [← e1]
  conv_lhs => rw [← List.take_append_drop d2 l, e2]
  simp

/-- The shape `H.C.S` with the offsets at the two delimiters. -/
theorem Token.parts_of_segments (t : Token) (H C S : List Byte)
    (hraw : t.raw.bytes = H ++ [dot] ++ C ++ [dot] ++ S)
    (h1 : t.dot1.val = H.length) (h2 : t.dot2.val = H.length + 1 + C.length) :
    ∃ hp cp pp sp, t.HeaderPart = some hp ∧ t.ClaimsPart = some cp ∧
      t.PayloadPart = some pp ∧ t.SignaturePart = some sp ∧
      hp.bytes = H ∧ cp.bytes = C ∧ pp.bytes = H ++ [dot] ++ C ∧ sp.bytes = S := by
  have hlen : t.raw.len = H.length + 1 + C.length + 1 + S.length := by
    rw [← Slice.length_bytes, hraw]
    simp only [List.length_append, List.length_singleton]
  have h2' : t.dot2.val = ((H.length + 1 + C.length : Nat) : Int) := by
    rw [h2]; push_cast; rfl
  obtain ⟨hp, cp, pp, sp, e1, e2, e3, e4, b1, b2, b3, b4⟩ :=
    t.parts H.length (H.length + 1 + C.length) h1 h2' (by omega) (by omega)
  refine ⟨hp, cp, pp, sp, e1, e2, e3, e4, ?_, ?_, ?_, ?_⟩
  · rw [b1, hraw]
    simp [List.append_assoc]
  · rw [b2, hraw]
    have : H ++ [dot] ++ C ++ [dot] ++ S = (H ++ [dot]) ++ (C ++ ([dot] ++ S)) := by simp
    rw [this, List.drop_left' (by simp)]
    have hc : H.length + 1 + C.length - (H.length + 1) = C.length := by omega
    rw [hc, List.take_left]
  · rw [b3, hraw]
    have : H ++ [dot] ++ C ++ [dot] ++ S = (H ++ [dot] ++ C) ++ ([dot] ++ S) := by simp
    rw [this, List.take_left' (by simp only [List.length_append, List.length_singleton])]
  · rw [b4, hraw]
    rw [List.drop_left' (by simp only [List.length_append, List.length_singleton])]

/-! ## Token: segments -/

/-- C1. Segment round trip: a token whose raw bytes are `H ++ "." ++ C ++ "." ++ S`
(no `.` in `H`, `C`, `S`) with `dot1 = len(H)` and `dot2 = len(H) + 1 + len(C)` has
`HeaderPart() = H`, `ClaimsPart() = C`, `SignaturePart() = S`,
`PayloadPart() = H ++ "." ++ C`, and `Bytes()` is the raw buffer with these bytes. -/
theorem segment_round_trip (t : Token) (H C S : List Byte)
    (_hH : dot ∉ H) (_hC : dot ∉ C) (_hS : dot ∉ S)
    (hraw : t.raw.bytes = H ++ [dot] ++ C ++ [dot] ++ S)
    (h1 : t.dot1.val = H.length) (h2 : t.dot2.val = H.length + 1 + C.length) :
    t.HeaderPart.map Slice.bytes = some H ∧
      t.ClaimsPart.map Slice.bytes = some C ∧
      t.SignaturePart.map Slice.bytes = some S ∧
      t.PayloadPart.map Slice.bytes = some (H ++ [dot] ++ C) ∧
      t.Bytes = t.raw ∧ t.Bytes.bytes = H ++ [dot] ++ C ++ [dot] ++ S := by
  obtain ⟨hp, cp, pp, sp, e1, e2, e3, e4, b1, b2, b3, b4⟩ :=
    t.parts_of_segments H C S hraw h1 h2
  rw [e1, e2, e3, e4]
  exact ⟨congrArg some b1, congrArg some b2, congrArg some b4, congrArg some b3, rfl, hraw⟩

/-- The token `ab.cd.ef` with offsets 2 and 5 instantiates C1. -/
theorem segment_round_trip_witness :
    (mkToken (ascii "ab.cd.ef") (by decide) 2 5).HeaderPart.map Slice.bytes = some (ascii "ab") ∧
      (mkToken (ascii "ab.cd.ef") (by decide) 2 5).ClaimsPart.map Slice.bytes
        = some (ascii "cd") ∧
      (mkToken (ascii "ab.cd.ef") (by decide) 2 5).SignaturePart.map Slice.bytes
        = some (ascii "ef") ∧
      (mkToken (ascii "ab.cd.ef") (by decide) 2 5).PayloadPart.map Slice.bytes
        = some (ascii "ab" ++ [dot] ++ ascii "cd") ∧
      (mkToken (ascii "ab.cd.ef") (by decide) 2 5).Bytes
        = (mkToken (ascii "ab.cd.ef") (by decide) 2 5).raw ∧
      (mkToken (ascii "ab.cd.ef") (by decide) 2 5).Bytes.bytes
        = ascii "ab" ++ [dot] ++ ascii "cd" ++ [dot] ++ ascii "ef" :=
  segment_round_trip (mkToken (ascii "ab.cd.ef") (by decide) 2 5) (ascii "ab") (ascii "cd")
    (ascii "ef") (by decide) (by decide) (by decide) (by decide) (by decide) (by decide)

/-- C2. Signing input: on a token with `0 <= dot1 < dot2 < len(raw)` and
`raw[dot1] = '.'`, `PayloadPart()` is `HeaderPart() ++ "." ++ ClaimsPart()`, and
both are the first `dot2` bytes of `raw`. -/
theorem signing_input (t : Token) (h0 : 0 ≤ t.dot1.val) (h12 : t.dot1.val < t.dot2.val)
    (h2l : t.dot2.val < (t.raw.len : Int)) (hd : t.raw.index t.dot1 = some dot) :
    ∃ hp cp pp, t.HeaderPart = some hp ∧ t.ClaimsPart = some cp ∧ t.PayloadPart = some pp ∧
      pp.bytes = hp.bytes ++ [dot] ++ cp.bytes ∧
      pp.bytes = t.raw.bytes.take t.dot2.val.toNat ∧
      hp.bytes ++ [dot] ++ cp.bytes = t.raw.bytes.take t.dot2.val.toNat := by
  have hd1 : t.dot1.val = (t.dot1.val.toNat : Int) := by omega
  have hd2 : t.dot2.val = (t.dot2.val.toNat : Int) := by omega
  obtain ⟨hp, cp, pp, sp, e1, e2, e3, _, b1, b2, b3, _⟩ :=
    t.parts t.dot1.val.toNat t.dot2.val.toNat hd1 hd2 (by omega) (by omega)
  rw [t.raw.index_of_lt t.dot1 _ hd1 (by omega)] at hd
  have hc := List.take_cut t.raw.bytes dot _ _ (show t.dot1.val.toNat < t.dot2.val.toNat by omega) hd
  refine ⟨hp, cp, pp, e1, e2, e3, ?_, b3, ?_⟩
  · rw [b3, b1, b2]; exact hc
  · rw [b1, b2]; exact hc.symm

/-- The token `ab.cd.ef` with offsets 2 and 5 instantiates C2. -/
theorem signing_input_witness :
    ∃ hp cp pp, (mkToken (ascii "ab.cd.ef") (by decide) 2 5).HeaderPart = some hp ∧
      (mkToken (ascii "ab.cd.ef") (by decide) 2 5).ClaimsPart = some cp ∧
      (mkToken (ascii "ab.cd.ef") (by decide) 2 5).PayloadPart = some pp ∧
      pp.bytes = hp.bytes ++ [dot] ++ cp.bytes ∧
      pp.bytes = (mkToken (ascii "ab.cd.ef") (by decide) 2 5).raw.bytes.take
        (mkToken (ascii "ab.cd.ef") (by decide) 2 5).dot2.val.toNat ∧
      hp.bytes ++ [dot] ++ cp.bytes = (mkToken (ascii "ab.cd.ef") (by decide) 2 5).raw.bytes.take
        (mkToken (ascii "ab.cd.ef") (by decide) 2 5).dot2.val.toNat :=
  signing_input (mkToken (ascii "ab.cd.ef") (by decide) 2 5) (by decide) (by decide)
    (by decide) (by decide)

/-- An element absent from the positions `a` to `a + n - 1` is absent from that range. -/
theorem List.not_mem_range {α : Type} (l : List α) (x : α) (a n : Nat)
    (h : ∀ i, a ≤ i → i < a + n → l.get? i ≠ some x) : x ∉ (l.drop a).take n := by
  intro hm
  obtain ⟨j, hj, e⟩ := List.mem_iff_getElem.1 hm
  have hj' : j < n ∧ j < l.length - a := by
    simpa [List.length_take, List.length_drop] using hj
  apply h (a + j) (by omega) (by omega)
  have e' : (List.take n (List.drop a l))[j]? = some x := by
    rw [List.getElem?_eq_getElem hj, e]
  rw [List.getElem?_take, if_pos hj'.1, List.getElem?_drop] at e'
  rw [List.get?_eq_getElem?]
  exact e'

/-- The element after a prefix. -/
theorem List.get?_length_append_cons {α : Type} (A B : List α) (x : α) :
    (A ++ x :: B).get? A.length = some x := by
  induction A with
  | nil => rfl
  | cons a A ih => simpa using ih

/-- C5. Accessors cannot fail on a valid token: with `0 <= dot1 < dot2 < len(raw)`
the four slice expressions of `HeaderPart`, `ClaimsPart`, `PayloadPart` and
`SignaturePart` are in range; `Bytes`, `String`, `Header`, `Claims` and `Signature`
read a field; `DecodeClaims` can return an error (the other operations have no
error result). -/
theorem accessors_defined (t : Token) (h0 : 0 ≤ t.dot1.val) (h12 : t.dot1.val < t.dot2.val)
    (h2l : t.dot2.val < (t.raw.len : Int)) :
    (t.HeaderPart.isSome ∧ t.ClaimsPart.isSome ∧ t.PayloadPart.isSome ∧
        t.SignaturePart.isSome) ∧
      (t.Bytes = t.raw ∧ t.String = t.raw.bytes ∧ t.Header = t.header ∧
        t.Claims = t.claims ∧ t.Signature = t.signature) ∧
      ∃ unmarshal : List Byte → Unit → Option GoError × Unit,
        (t.DecodeClaims unmarshal ()).1.isSome := by
  have hd1 : t.dot1.val = (t.dot1.val.toNat : Int) := by omega
  have hd2 : t.dot2.val = (t.dot2.val.toNat : Int) := by omega
  obtain ⟨hp, cp, pp, sp, e1, e2, e3, e4, _⟩ :=
    t.parts t.dot1.val.toNat t.dot2.val.toNat hd1 hd2 (by omega) (by omega)
  refine ⟨?_, ⟨rfl, rfl, rfl, rfl, rfl⟩, fun _ u => (some (GoError.leaf []), u), rfl⟩
  rw [e1, e2, e3, e4]
  exact ⟨rfl, rfl, rfl, rfl⟩

/-- The token `ab.cd.ef` with offsets 2 and 5 instantiates C5. -/
theorem accessors_defined_witness :
    ((mkToken (ascii "ab.cd.ef") (by decide) 2 5).HeaderPart.isSome ∧
        (mkToken (ascii "ab.cd.ef") (by decide) 2 5).ClaimsPart.isSome ∧
        (mkToken (ascii "ab.cd.ef") (by decide) 2 5).PayloadPart.isSome ∧
        (mkToken (ascii "ab.cd.ef") (by decide) 2 5).SignaturePart.isSome) ∧
      ((mkToken (ascii "ab.cd.ef") (by decide) 2 5).Bytes
          = (mkToken (ascii "ab.cd.ef") (by decide) 2 5).raw ∧
        (mkToken (ascii "ab.cd.ef") (by decide) 2 5).String
          = (mkToken (ascii "ab.cd.ef") (by decide) 2 5).raw.bytes ∧
        (mkToken (ascii "ab.cd.ef") (by decide) 2 5).Header
          = (mkToken (ascii "ab.cd.ef") (by decide) 2 5).header ∧
        (mkToken (ascii "ab.cd.ef") (by decide) 2 5).Claims
          = (mkToken (ascii "ab.cd.ef") (by decide) 2 5).claims ∧
        (mkToken (ascii "ab.cd.ef") (by decide) 2 5).Signature
          = (mkToken (ascii "ab.cd.ef") (by decide) 2 5).signature) ∧
      ∃ unmarshal : List Byte → Unit → Option GoError × Unit,
        ((mkToken (ascii "ab.cd.ef") (by decide) 2 5).DecodeClaims unmarshal ()).1.isSome :=
  accessors_defined (mkToken (ascii "ab.cd.ef") (by decide) 2 5) (by decide) (by decide)
    (by decide)

/-- C8, as stated, fails: the zero value `Token{}` has `dot1 = dot2 = 0 = len(raw)`,
so `dot1 >= dot2`, and it does not satisfy the offset invariant. -/
theorem zero_token_breaks_offset_invariant :
    zeroToken.dot1.val ≥ zeroToken.dot2.val ∧ zeroToken.dot2.val ≥ (zeroToken.raw.len : Int) ∧
      ¬ zeroToken.OffsetInvariant := by
  decide

/-- C8, amended. The offset invariant `0 <= dot1 < dot2 < len(raw)` with
`raw[dot1] = raw[dot2] = '.'` holds for every token whose raw bytes are
`H ++ "." ++ C ++ "." ++ S` with `dot1 = len(H)` and `dot2 = len(H) + 1 + len(C)`;
the type itself admits other values. -/
theorem offset_invariant_of_segments (t : Token) (H C S : List Byte)
    (hraw : t.raw.bytes = H ++ [dot] ++ C ++ [dot] ++ S)
    (h1 : t.dot1.val = H.length) (h2 : t.dot2.val = H.length + 1 + C.length) :
    t.OffsetInvariant := by
  have hlen : t.raw.len = H.length + 1 + C.length + 1 + S.length := by
    rw [← Slice.length_bytes, hraw]
    simp only [List.length_append, List.length_singleton]
  have h2' : t.dot2.val = ((H.length + 1 + C.length : Nat) : Int) := by
    rw [h2]; push_cast; rfl
  refine ⟨by omega, by omega, by omega, ?_, ?_⟩
  · rw [t.raw.index_of_lt t.dot1 H.length h1 (by omega), hraw]
    have : H ++ [dot] ++ C ++ [dot] ++ S = H ++ dot :: (C ++ [dot] ++ S) := by simp
    rw [this]
    exact List.get?_length_append_cons _ _ _
  · rw [t.raw.index_of_lt t.dot2 _ h2' (by omega), hraw]
    have e : H ++ [dot] ++ C ++ [dot] ++ S = (H ++ [dot] ++ C) ++ dot :: S := by simp
    have l : H.length + 1 + C.length = (H ++ [dot] ++ C).length := by
      simp only [List.length_append, List.length_singleton]
    rw [e, l]
    exact List.get?_length_append_cons _ _ _

/-- The token `ab.cd.ef` with offsets 2 and 5 instantiates the amended C8. -/
theorem offset_invariant_of_segments_witness :
    (mkToken (ascii "ab.cd.ef") (by decide) 2 5).OffsetInvariant :=
  offset_invariant_of_segments (mkToken (ascii "ab.cd.ef") (by decide) 2 5) (ascii "ab")
    (ascii "cd") (ascii "ef") (by decide) (by decide) (by decide)

/-- C10. Exactly two delimiters: on a token with `0 <= dot1 < dot2 < len(raw)`,
`raw[dot1] = raw[dot2] = '.'` and no `.` at any other position of `raw`, the
results of `HeaderPart`, `ClaimsPart` and `SignaturePart` contain no `.`,
`PayloadPart` contains exactly one, at index `dot1`, and `Bytes` exactly two. -/
theorem exactly_two_delimiters (t : Token) (h0 : 0 ≤ t.dot1.val)
    (h12 : t.dot1.val < t.dot2.val) (h2l : t.dot2.val < (t.raw.len : Int))
    (hd1 : t.raw.index t.dot1 = some dot) (hd2 : t.raw.index t.dot2 = some dot)
    (hno : ∀ i : Nat, i < t.raw.len → t.raw.bytes.get? i = some dot →
      (i : Int) = t.dot1.val ∨ (i : Int) = t.dot2.val) :
    ∃ hp cp sp pp, t.HeaderPart = some hp ∧ t.ClaimsPart = some cp ∧
      t.SignaturePart = some sp ∧ t.PayloadPart = some pp ∧
      dot ∉ hp.bytes ∧ dot ∉ cp.bytes ∧ dot ∉ sp.bytes ∧
      pp.bytes.count dot = 1 ∧ pp.bytes.get? t.dot1.val.toNat = some dot ∧
      t.Bytes.bytes.count dot = 2 := by
  have e1' : t.dot1.val = (t.dot1.val.toNat : Int) := by omega
  have e2' : t.dot2.val = (t.dot2.val.toNat : Int) := by omega
  generalize t.dot1.val.toNat = d1 at e1'
  generalize t.dot2.val.toNat = d2 at e2'
  have hlt1 : d1 < d2 := by omega
  have hlt2 : d2 < t.raw.len := by omega
  obtain ⟨hp, cp, pp, sp, e1, e2, e3, e4, b1, b2, b3, b4⟩ := t.parts d1 d2 e1' e2' hlt1 hlt2
  rw [t.raw.index_of_lt t.dot1 d1 e1' (by omega)] at hd1
  rw [t.raw.index_of_lt t.dot2 d2 e2' hlt2] at hd2
  have hlen := t.raw.length_bytes
  have hA : dot ∉ t.raw.bytes.take d1 := by
    have := List.not_mem_range t.raw.bytes dot 0 d1 (fun i _ hi hget => by
      rcases hno i (by omega) hget with h | h <;> omega)
    simpa using this
  have hB : dot ∉ (t.raw.bytes.drop (d1 + 1)).take (d2 - (d1 + 1)) :=
    List.not_mem_range t.raw.bytes dot (d1 + 1) (d2 - (d1 + 1)) (fun i hi1 hi2 hget => by
      rcases hno i (by omega) hget with h | h <;> omega)
  have hC : dot ∉ t.raw.bytes.drop (d2 + 1) := by
    have := List.not_mem_range t.raw.bytes dot (d2 + 1) (t.raw.len - (d2 + 1))
      (fun i hi1 hi2 hget => by rcases hno i (by omega) hget with h | h <;> omega)
    rwa [List.take_of_length_le (by rw [List.length_drop, hlen])] at this
  have hcutP := List.take_cut t.raw.bytes dot d1 d2 hlt1 hd1
  have hcut := List.cut_two t.raw.bytes dot dot d1 d2 hlt1 hd1 hd2
  refine ⟨hp, cp, sp, pp, e1, e2, e4, e3, by rwa [b1], by rwa [b2], by rwa [b4], ?_, ?_, ?_⟩
  · rw [b3, hcutP]
    simp [List.count_append, List.count_eq_zero_of_not_mem hA,
      List.count_eq_zero_of_not_mem hB]
  · rw [b3, List.get?_eq_getElem?, List.getElem?_take, if_pos hlt1, ← List.get?_eq_getElem?]
    exact hd1
  · show t.raw.bytes.count dot = 2
    rw [hcut]
    simp [List.count_append, List.count_eq_zero_of_not_mem hA,
      List.count_eq_zero_of_not_mem hB, List.count_eq_zero_of_not_mem hC]

/-- The token `ab.cd.ef` with offsets 2 and 5 instantiates C10. -/
theorem exactly_two_delimiters_witness :
    ∃ hp cp sp pp, (mkToken (ascii "ab.cd.ef") (by decide) 2 5).HeaderPart = some hp ∧
      (mkToken (ascii "ab.cd.ef") (by decide) 2 5).ClaimsPart = some cp ∧
      (mkToken (ascii "ab.cd.ef") (by decide) 2 5).SignaturePart = some sp ∧
      (mkToken (ascii "ab.cd.ef") (by decide) 2 5).PayloadPart = some pp ∧
      dot ∉ hp.bytes ∧ dot ∉ cp.bytes ∧ dot ∉ sp.bytes ∧
      pp.bytes.count dot = 1 ∧
      pp.bytes.get? (mkToken (ascii "ab.cd.ef") (by decide) 2 5).dot1.val.toNat = some dot ∧
      (mkToken (ascii "ab.cd.ef") (by decide) 2 5).Bytes.bytes.count dot = 2 :=
  exactly_two_delimiters (mkToken (ascii "ab.cd.ef") (by decide) 2 5) (by decide) (by decide)
    (by decide) (by decide) (by decide) (by decide)

/-! ## Header encoding -/

theorem Header.String_eq (h : Header) :
    h.String = ascii "\x7b\"alg\":\"" ++ h.Algorithm ++
      (if h.Typ ≠ [] then ascii "\",\"typ\":\"" ++ h.Typ else []) ++
      (if h.ContentType ≠ [] then ascii "\",\"cty\":\"" ++ h.ContentType else []) ++
      ascii "\"\x7d" := by
  unfold Header.String Header.MarshalJSON
  by_cases h1 : h.Typ = [] <;> by_cases h2 : h.ContentType = [] <;> simp [h1, h2]

theorem ascii_typ : ascii "\",\"typ\":\"" = ascii "\"" ++ ascii ",\"typ\":\"" := by decide

theorem ascii_cty : ascii "\",\"cty\":\"" = ascii "\"" ++ ascii ",\"cty\":\"" := by decide

theorem ascii_close : ascii "\"\x7d" = ascii "\"" ++ ascii "\x7d" := by decide

/-- The encoding with every closing quote written after its value. -/
theorem Header.String_quoted (h : Header) :
    h.String = ascii "\x7b\"alg\":\"" ++ h.Algorithm ++ ascii "\"" ++
      (if h.Typ ≠ [] then ascii ",\"typ\":\"" ++ h.Typ ++ ascii "\"" else []) ++
      (if h.ContentType ≠ [] then ascii ",\"cty\":\"" ++ h.ContentType ++ ascii "\"" else []) ++
      ascii "\x7d" := by
  rw [Header.String_eq, ascii_typ, ascii_cty, ascii_close]
  by_cases h1 : h.Typ = [] <;> by_cases h2 : h.ContentType = [] <;>
    simp [h1, h2, List.append_assoc]

/-- C3. Header canonical encoding: `h.String()` is `{"alg":"` ++ Algorithm ++ `"`,
then `,"typ":"` ++ Type ++ `"` when Type is non-empty, then `,"cty":"` ++
ContentType ++ `"` when ContentType is non-empty, then `}`, for every header (an
empty Algorithm included); with the four literal cases of the spec. -/
theorem header_canonical_encoding :
    (∀ h : Header, h.String = ascii "\x7b\"alg\":\"" ++ h.Algorithm ++ ascii "\"" ++
      (if h.Typ ≠ [] then ascii ",\"typ\":\"" ++ h.Typ ++ ascii "\"" else []) ++
      (if h.ContentType ≠ [] then ascii ",\"cty\":\"" ++ h.ContentType ++ ascii "\"" else []) ++
      ascii "\x7d") ∧
    Header.String ⟨ascii "HS256", [], []⟩ = ascii "\x7b\"alg\":\"HS256\"\x7d" ∧
    Header.String ⟨ascii "HS256", ascii "JWT", []⟩
      = ascii "\x7b\"alg\":\"HS256\",\"typ\":\"JWT\"\x7d" ∧
    Header.String ⟨ascii "RS256", ascii "JWT", ascii "foo"⟩
      = ascii "\x7b\"alg\":\"RS256\",\"typ\":\"JWT\",\"cty\":\"foo\"\x7d" ∧
    Header.String ⟨ascii "none", [], ascii "x"⟩
      = ascii "\x7b\"alg\":\"none\",\"cty\":\"x\"\x7d" ∧
    Header.String ⟨[], [], []⟩ = ascii "\x7b\"alg\":\"\"\x7d" :=
  ⟨Header.String_quoted, by decide, by decide, by decide, by decide, by decide⟩

/-- C7, as stated, fails: for `{Algorithm: "HS256"}` the four steps of the spec
read literally give `{"alg":"HS256""}`, with two quotes before the brace, while
`String()` gives `{"alg":"HS256"}`. -/
theorem four_steps_differ :
    specFourSteps ⟨ascii "HS256", [], []⟩ = ascii "\x7b\"alg\":\"HS256\"\"\x7d" ∧
      Header.String ⟨ascii "HS256", [], []⟩ = ascii "\x7b\"alg\":\"HS256\"\x7d" ∧
      Header.String ⟨ascii "HS256", [], []⟩ ≠ specFourSteps ⟨ascii "HS256", [], []⟩ := by
  decide

/-- C7, amended. `String()` is the concatenation of steps 1 to 3 of the spec and
the closing single character `}`: the literal four-step text is `String()` with one
more quote before the closing brace. -/
theorem header_encoding_steps (h : Header) :
    h.String = (ascii "\x7b\"alg\":\"" ++ h.Algorithm ++ ascii "\"") ++
        (if h.Typ ≠ [] then ascii ",\"typ\":\"" ++ h.Typ ++ ascii "\"" else []) ++
        (if h.ContentType ≠ [] then ascii ",\"cty\":\"" ++ h.ContentType ++ ascii "\"" else []) ++
        ascii "\x7d" ∧
      specFourSteps h = h.String.dropLast ++ ascii "\"\x7d" := by
  refine ⟨Header.String_quoted h, ?_⟩
  rw [Header.String_quoted]
  unfold specFourSteps
  have e : ascii "\x7d" = [125] := by decide
  rw [e, List.dropLast_concat]

/-- C9. Header encoding never fails: `MarshalJSON` returns a nil error, and
`String()` is exactly the bytes `MarshalJSON` produced. -/
theorem header_encoding_never_fails (h : Header) :
    (h.MarshalJSON).2 = none ∧ h.String = (h.MarshalJSON).1 :=
  ⟨rfl, rfl⟩

/-! ## DecodeClaims -/

/-- C4. `DecodeClaims` fails exactly when the decode primitive fails on the stored
claims bytes `t.Claims()`; the error it then returns has the primitive's error as
its cause and the message `jwt: claims are not valid: ` followed by the cause's
message. The outcome depends on the token through its claims field only. -/
theorem decode_claims_error {τ : Type} (unmarshal : List Byte → τ → Option GoError × τ)
    (t : Token) (into : τ) :
    ((t.DecodeClaims unmarshal into).1 = none ↔ (unmarshal t.Claims.bytes into).1 = none) ∧
      (∀ cause, (unmarshal t.Claims.bytes into).1 = some cause →
        ∃ err, (t.DecodeClaims unmarshal into).1 = some err ∧ err.Unwrap = some cause ∧
          err.Error = ascii "jwt: claims are not valid: " ++ cause.Error) ∧
      (∀ t2 : Token, t2.claims = t.claims →
        t2.DecodeClaims unmarshal into = t.DecodeClaims unmarshal into) := by
  simp only [Token.DecodeClaims, Token.Claims]
  refine ⟨?_, ?_, ?_⟩
  · cases (unmarshal t.claims.bytes into).1 <;> simp
  · intro cause hc
    rw [hc]
    exact ⟨_, rfl, rfl, rfl⟩
  · intro t2 h2
    rw [h2]

/-- A token whose claims are `not-json` instantiates C4: the primitive fails and
`DecodeClaims` wraps its error. -/
theorem decode_claims_error_witness :
    ∃ err, (Token.DecodeClaims sampleUnmarshal
        { zeroToken with claims := Slice.ofBytes (ascii "not-json") (by decide) } ()).1 = some err ∧
      err.Unwrap = some (GoError.leaf (ascii "invalid character")) ∧
      err.Error = ascii "jwt: claims are not valid: " ++
        (GoError.leaf (ascii "invalid character")).Error :=
  (decode_claims_error sampleUnmarshal
    { zeroToken with claims := Slice.ofBytes (ascii "not-json") (by decide) } ()).2.1
    (GoError.leaf (ascii "invalid character")) (by decide)

/-! ## Header encoding as JSON -/

/-- Plain text inside a string is read as it is, byte by byte along the UTF-8
decoder. -/
theorem run_plain_utf8 (ms : List (JString × JString)) (key : Option JString) (s : GoString)
    (hs : Plain s) (u v : Option Utf8Tail) (hu : s.foldlM utf8Step u = some v) (cur : JString) :
    s.foldlM jstep (JState.str ms key cur (Esc.ofUtf8 u))
      = some (JState.str ms key (cur ++ JString.ofBytes s) (Esc.ofUtf8 v)) := by
  induction s generalizing u cur with
  | nil =>
    have e : u = v := by simpa using hu
    simp [JString.ofBytes, e]
  | cons b s ih =>
    obtain ⟨h1, h2, h3⟩ := hs b (List.mem_cons_self _ _)
    have hs' : Plain s := fun c hc => hs c (List.mem_cons_of_mem _ hc)
    rw [List.foldlM_cons] at hu
    cases hstep : utf8Step u b with
    | none => rw [hstep] at hu; cases hu
    | some w =>
      rw [hstep] at hu
      have hu' : s.foldlM utf8Step w = some v := hu
      have hb : jstep (JState.str ms key cur (Esc.ofUtf8 u)) b
          = some (JState.str ms key (cur ++ [JChar.byte b]) (Esc.ofUtf8 w)) := by
        cases u with
        | none =>
          have hl : utf8Lead b = some w := hstep
          simp only [Esc.ofUtf8, jstep]
          rw [if_neg h1, if_neg h2, if_neg (by omega), hl]
          rfl
        | some t =>
          simp only [Esc.ofUtf8, jstep]
          rw [hstep]
          rfl
      rw [List.foldlM_cons, hb]
      simp only [Option.some_bind, Option.bind_eq_bind]
      rw [ih hs' w hu']
      simp [JString.ofBytes]

/-- Plain well-formed UTF-8 text inside a string is read as it is. -/
theorem run_plain (ms : List (JString × JString)) (key : Option JString) (s : GoString)
    (hs : Plain s) (hv : utf8Valid s) (cur : JString) :
    s.foldlM jstep (JState.str ms key cur Esc.no)
      = some (JState.str ms key (cur ++ JString.ofBytes s) Esc.no) :=
  run_plain_utf8 ms key s hs none none hv cur

theorem run_open :
    (ascii "\x7b\"alg\":\"").foldlM jstep JState.start
      = some (JState.str [] (some (JString.ofBytes (ascii "alg"))) [] Esc.no) := by
  decide

theorem run_typ (ms : List (JString × JString)) (k cur : JString) :
    (ascii "\",\"typ\":\"").foldlM jstep (JState.str ms (some k) cur Esc.no)
      = some (JState.str (ms ++ [(k, cur)]) (some (JString.ofBytes (ascii "typ"))) [] Esc.no) := by
  rfl

theorem run_cty (ms : List (JString × JString)) (k cur : JString) :
    (ascii "\",\"cty\":\"").foldlM jstep (JState.str ms (some k) cur Esc.no)
      = some (JState.str (ms ++ [(k, cur)]) (some (JString.ofBytes (ascii "cty"))) [] Esc.no) := by
  rfl

theorem run_close (ms : List (JString × JString)) (k cur : JString) :
    (ascii "\"\x7d").foldlM jstep (JState.str ms (some k) cur Esc.no)
      = some (JState.done (ms ++ [(k, cur)])) := by
  rfl

/-- C6 is not met by the code: `MarshalJSON` writes a quote of `Algorithm`
unescaped, and the text `{"alg":"""}` that `String()` returns for
`{Algorithm: "\""}` is not a JSON object (so not one with the member `alg` of value
`"`). -/
theorem quote_breaks_json :
    Header.String ⟨ascii "\"", [], []⟩ = ascii "\x7b\"alg\":\"\"\"\x7d" ∧
      parseObject (Header.String ⟨ascii "\"", [], []⟩) = none ∧
      parseObject (Header.String ⟨ascii "\"", [], []⟩) ≠ some (specMembers ⟨ascii "\"", [], []⟩) := by
  decide

/-- Other values written as they are give no JSON either: a backslash escapes the
closing quote, a line feed is a control character, and the byte `0xFF` is not
UTF-8. -/
theorem verbatim_values_not_json :
    parseObject (Header.String ⟨ascii "\\", [], []⟩) = none ∧
      parseObject (Header.String ⟨ascii "HS256", ascii "J\nWT", []⟩) = none ∧
      parseObject (Header.String ⟨[255], [], []⟩) = none ∧
      parseObject (Header.String ⟨ascii "HS256", [], [192, 128]⟩) = none := by
  decide

/-- Where no field needs escaping, the encoding is the JSON object of the spec: for
every header whose Algorithm, Type and ContentType are well-formed UTF-8 without
quote, backslash and control byte, `String()` is a well-formed JSON object whose
members are `alg` with value Algorithm, then `typ` with value Type when Type is
non-empty, then `cty` with value ContentType when ContentType is non-empty. -/
theorem header_encoding_valid_json (h : Header) (ha : Plain h.Algorithm) (ht : Plain h.Typ)
    (hc : Plain h.ContentType) (va : utf8Valid h.Algorithm) (vt : utf8Valid h.Typ)
    (vc : utf8Valid h.ContentType) : parseObject h.String = some (specMembers h) := by
  unfold parseObject specMembers
  rw [Header.String_eq]
  by_cases h1 : h.Typ = [] <;> by_cases h2 : h.ContentType = [] <;>
    simp [h1, h2, List.foldlM_append, run_open, run_plain, run_typ, run_cty, run_close, ha, ht,
      hc, va, vt, vc]

set_option maxRecDepth 4096 in
/-- The header `{Algorithm: "RS256", Type: "JWT", ContentType: "\u00e9"}`, whose
ContentType is the two bytes C3 A9, is encoded as the JSON object of the spec. -/
theorem header_encoding_valid_json_witness :
    parseObject (Header.String ⟨ascii "RS256", ascii "JWT", [195, 169]⟩)
      = some (specMembers ⟨ascii "RS256", ascii "JWT", [195, 169]⟩) :=
  header_encoding_valid_json ⟨ascii "RS256", ascii "JWT", [195, 169]⟩ (by decide) (by decide)
    (by decide) (by decide) (by decide) (by decide)

/-! ## Token: the raw buffer and its segments -/

/-- C13. String and Bytes agree: for every token, whatever bytes `raw` holds, the
bytes of `String()` are the bytes of `Bytes()`, and both are the stored raw buffer;
so for a raw buffer that is not valid UTF-8. -/
theorem string_bytes_agree :
    (∀ t : Token, t.String = t.Bytes.bytes ∧ t.Bytes = t.raw ∧ t.String = t.raw.bytes) ∧
      (mkToken [255, 46, 192, 46, 128] (by decide) 1 3).String = [255, 46, 192, 46, 128] ∧
      (mkToken [255, 46, 192, 46, 128] (by decide) 1 3).Bytes.bytes = [255, 46, 192, 46, 128] :=
  ⟨fun _ => ⟨rfl, rfl, rfl⟩, by decide, by decide⟩

/-- C14. Reassembly: on a token with `0 <= dot1 < dot2 < len(raw)` and
`raw[dot1] = raw[dot2] = '.'`, `Bytes()` is
`HeaderPart() ++ "." ++ ClaimsPart() ++ "." ++ SignaturePart()` and
`PayloadPart() ++ "." ++ SignaturePart()`, and the lengths of the three segments
plus 2 give `len(raw)`. -/
theorem reassembly (t : Token) (h0 : 0 ≤ t.dot1.val) (h12 : t.dot1.val < t.dot2.val)
    (h2l : t.dot2.val < (t.raw.len : Int))
    (hd1 : t.raw.index t.dot1 = some dot) (hd2 : t.raw.index t.dot2 = some dot) :
    ∃ hp cp pp sp, t.HeaderPart = some hp ∧ t.ClaimsPart = some cp ∧
      t.PayloadPart = some pp ∧ t.SignaturePart = some sp ∧
      t.Bytes.bytes = hp.bytes ++ [dot] ++ cp.bytes ++ [dot] ++ sp.bytes ∧
      t.Bytes.bytes = pp.bytes ++ [dot] ++ sp.bytes ∧
      hp.len + cp.len + sp.len + 2 = t.raw.len := by
  have e1' : t.dot1.val = (t.dot1.val.toNat : Int) := by omega
  have e2' : t.dot2.val = (t.dot2.val.toNat : Int) := by omega
  generalize t.dot1.val.toNat = d1 at e1'
  generalize t.dot2.val.toNat = d2 at e2'
  have hlt1 : d1 < d2 := by omega
  have hlt2 : d2 < t.raw.len := by omega
  obtain ⟨hp, cp, pp, sp, e1, e2, e3, e4, b1, b2, b3, b4⟩ := t.parts d1 d2 e1' e2' hlt1 hlt2
  rw [t.raw.index_of_lt t.dot1 d1 e1' (by omega)] at hd1
  rw [t.raw.index_of_lt t.dot2 d2 e2' hlt2] at hd2
  have hcutP := List.take_cut t.raw.bytes dot d1 d2 hlt1 hd1
  have hcut := List.cut_two t.raw.bytes dot dot d1 d2 hlt1 hd1 hd2
  rw [← b1, ← b2, ← b4] at hcut
  rw [← b1, ← b2, ← b3] at hcutP
  have hall : t.Bytes.bytes = hp.bytes ++ [dot] ++ cp.bytes ++ [dot] ++ sp.bytes := hcut
  refine ⟨hp, cp, pp, sp, e1, e2, e3, e4, hall, ?_, ?_⟩
  · rw [hcutP]; exact hall
  · have hl := congrArg List.length hcut
    rw [Slice.length_bytes] at hl
    simp only [List.length_append, List.length_singleton, Slice.length_bytes] at hl
    omega

/-- The token `ab.cd.ef` with offsets 2 and 5 instantiates C14. -/
theorem reassembly_witness :
    ∃ hp cp pp sp, (mkToken (ascii "ab.cd.ef") (by decide) 2 5).HeaderPart = some hp ∧
      (mkToken (ascii "ab.cd.ef") (by decide) 2 5).ClaimsPart = some cp ∧
      (mkToken (ascii "ab.cd.ef") (by decide) 2 5).PayloadPart = some pp ∧
      (mkToken (ascii "ab.cd.ef") (by decide) 2 5).SignaturePart = some sp ∧
      (mkToken (ascii "ab.cd.ef") (by decide) 2 5).Bytes.bytes
        = hp.bytes ++ [dot] ++ cp.bytes ++ [dot] ++ sp.bytes ∧
      (mkToken (ascii "ab.cd.ef") (by decide) 2 5).Bytes.bytes = pp.bytes ++ [dot] ++ sp.bytes ∧
      hp.len + cp.len + sp.len + 2 = (mkToken (ascii "ab.cd.ef") (by decide) 2 5).raw.len :=
  reassembly (mkToken (ascii "ab.cd.ef") (by decide) 2 5) (by decide) (by decide) (by decide)
    (by decide) (by decide)

/-- The successor of an `int` is one more, or negative after wrapping around. -/
theorem GoInt.succ_val_cases (i : GoInt) : i.succ.val = i.val + 1 ∨ i.succ.val < 0 := by
  by_cases h : i.val + 1 < (2 : Int) ^ 63
  · exact Or.inl (i.succ_val h)
  · right
    have h1 := i.hi
    have e : i.val = 2 ^ 63 - 1 := by omega
    show wrapInt (i.val + 1) < 0
    rw [e]
    decide

/-- C17. Zero-value token: for `Token{}` (raw empty, `dot1 = dot2 = 0`)
`HeaderPart()` and `PayloadPart()` return the empty byte sequence, `ClaimsPart()`
(slice `[1:0]`) and `SignaturePart()` (slice `[1:]` of an empty buffer) panic with
a slice bound out of range; `ClaimsPart()` panics whenever `dot1 >= dot2`, and
`SignaturePart()` whenever `dot2 >= len(raw)`. -/
theorem zero_value_token :
    (zeroToken.raw.bytes = [] ∧ zeroToken.dot1.val = 0 ∧ zeroToken.dot2.val = 0 ∧
        zeroToken.HeaderPart.map Slice.bytes = some [] ∧
        zeroToken.PayloadPart.map Slice.bytes = some [] ∧
        zeroToken.ClaimsPart = none ∧ zeroToken.SignaturePart = none) ∧
      (∀ t : Token, t.dot1.val ≥ t.dot2.val → t.ClaimsPart = none) ∧
      (∀ t : Token, t.dot2.val ≥ (t.raw.len : Int) → t.SignaturePart = none) := by
  refine ⟨by decide, ?_, ?_⟩
  · intro t h
    apply dif_neg
    rcases t.dot1.succ_val_cases with e | e <;> omega
  · intro t h
    apply dif_neg
    have hl : t.raw.lenInt.val = (t.raw.len : Int) := rfl
    rcases t.dot2.succ_val_cases with e | e <;> omega

/-- The bytes `ab.cd.ef` with offsets 5 and 2, and with offsets 2 and 8,
instantiate the two general cases of C17. -/
theorem zero_value_token_witness :
    (mkToken (ascii "ab.cd.ef") (by decide) 5 2).ClaimsPart = none ∧
      (mkToken (ascii "ab.cd.ef") (by decide) 2 8).SignaturePart = none :=
  ⟨zero_value_token.2.1 (mkToken (ascii "ab.cd.ef") (by decide) 5 2) (by decide),
    zero_value_token.2.2 (mkToken (ascii "ab.cd.ef") (by decide) 2 8) (by decide)⟩

/-! ## Header encoding: injectivity -/

/-- C15. Header encoding is not injective, because field values are written
without escaping: `{Algorithm: "HS256\",\"typ\":\"JWT", Type: ""}` and
`{Algorithm: "HS256", Type: "JWT"}` are different headers and both encode to
`{"alg":"HS256","typ":"JWT"}`. -/
theorem header_encoding_not_injective :
    (⟨ascii "HS256\",\"typ\":\"JWT", [], []⟩ : Header) ≠ ⟨ascii "HS256", ascii "JWT", []⟩ ∧
      Header.String ⟨ascii "HS256\",\"typ\":\"JWT", [], []⟩
        = ascii "\x7b\"alg\":\"HS256\",\"typ\":\"JWT\"\x7d" ∧
      Header.String ⟨ascii "HS256", ascii "JWT", []⟩
        = ascii "\x7b\"alg\":\"HS256\",\"typ\":\"JWT\"\x7d" ∧
      ¬ Function.Injective Header.String := by
  refine ⟨by decide, by decide, by decide, fun hinj => ?_⟩
  have h : (⟨ascii "HS256\",\"typ\":\"JWT", [], []⟩ : Header) = ⟨ascii "HS256", ascii "JWT", []⟩ :=
    hinj (by decide)
  revert h
  decide

/-- A sequence is cut at its first occurrence of `q` in one way only. -/
theorem List.first_cut_unique {α : Type} (q : α) (A B R S : List α) (hA : q ∉ A) (hB : q ∉ B)
    (h : A ++ q :: R = B ++ q :: S) : A = B ∧ R = S := by
  induction A generalizing B with
  | nil =>
    cases B with
    | nil => simpa using h
    | cons b B =>
      simp only [List.nil_append, List.cons_append, List.cons.injEq] at h
      exact absurd (h.1 ▸ List.mem_cons_self _ _) hB
  | cons a A ih =>
    cases B with
    | nil =>
      simp only [List.nil_append, List.cons_append, List.cons.injEq] at h
      exact absurd (h.1 ▸ List.mem_cons_self _ _) hA
    | cons b B =>
      simp only [List.cons_append, List.cons.injEq] at h
      obtain ⟨r1, r2⟩ := ih B (fun hm => hA (List.mem_cons_of_mem _ hm))
        (fun hm => hB (List.mem_cons_of_mem _ hm)) h.2
      exact ⟨by rw [h.1, r1], r2⟩

theorem ascii_open_bytes : ascii "\x7b\"alg\":\"" = [123, 34, 97, 108, 103, 34, 58, 34] := by
  decide

theorem ascii_typ_bytes : ascii "\",\"typ\":\"" = [34, 44, 34, 116, 121, 112, 34, 58, 34] := by
  decide

theorem ascii_cty_bytes : ascii "\",\"cty\":\"" = [34, 44, 34, 99, 116, 121, 34, 58, 34] := by
  decide

theorem ascii_close_bytes : ascii "\"\x7d" = [34, 125] := by decide

/-- The encoding with its literal parts as bytes, each value followed by its
closing quote. -/
theorem Header.String_bytes (h : Header) :
    h.String = [123, 34, 97, 108, 103, 34, 58, 34] ++ (h.Algorithm ++ 34 ::
      (if h.Typ ≠ [] then
        [44, 34, 116, 121, 112, 34, 58, 34] ++ (h.Typ ++ 34 ::
          (if h.ContentType ≠ [] then
            [44, 34, 99, 116, 121, 34, 58, 34] ++ (h.ContentType ++ [34, 125])
          else [125]))
      else
        (if h.ContentType ≠ [] then
          [44, 34, 99, 116, 121, 34, 58, 34] ++ (h.ContentType ++ [34, 125])
        else [125]))) := by
  rw [Header.String_eq, ascii_open_bytes, ascii_typ_bytes, ascii_cty_bytes, ascii_close_bytes]
  by_cases h1 : h.Typ = [] <;> by_cases h2 : h.ContentType = [] <;> simp [h1, h2]

/-- The `cty` part of the encoding determines `ContentType`. -/
theorem cty_part_injective (C D : GoString)
    (h : (if C ≠ [] then [44, 34, 99, 116, 121, 34, 58, (34 : Byte)] ++ (C ++ [34, 125])
        else [125])
      = (if D ≠ [] then [44, 34, 99, 116, 121, 34, 58, (34 : Byte)] ++ (D ++ [34, 125])
        else [125])) : C = D := by
  by_cases hC : C = [] <;> by_cases hD : D = []
  · rw [hC, hD]
  · simp [hC, hD] at h
  · simp [hC, hD] at h
  · rw [if_pos hC, if_pos hD] at h
    exact List.append_cancel_right (List.append_cancel_left h)

/-- C16. Header encoding is injective on quote-free headers: when no field of
`h1` and `h2` contains a `"`, equal `String()` results give equal headers. -/
theorem header_encoding_injective (h1 h2 : Header)
    (a1 : (34 : Byte) ∉ h1.Algorithm) (t1 : (34 : Byte) ∉ h1.Typ)
    (_c1 : (34 : Byte) ∉ h1.ContentType)
    (a2 : (34 : Byte) ∉ h2.Algorithm) (t2 : (34 : Byte) ∉ h2.Typ)
    (_c2 : (34 : Byte) ∉ h2.ContentType)
    (h : h1.String = h2.String) : h1 = h2 := by
  rw [Header.String_bytes, Header.String_bytes] at h
  obtain ⟨eA, eR⟩ := List.first_cut_unique 34 _ _ _ _ a1 a2 (List.append_cancel_left h)
  have key : h1.Typ = h2.Typ ∧ h1.ContentType = h2.ContentType := by
    by_cases hT1 : h1.Typ = [] <;> by_cases hT2 : h2.Typ = []
    · simp only [hT1, hT2, ne_eq, not_true_eq_false, if_false] at eR
      exact ⟨by rw [hT1, hT2], cty_part_injective _ _ eR⟩
    · exfalso
      rw [if_neg (not_not.2 hT1), if_pos hT2] at eR
      by_cases hC : h1.ContentType = [] <;> simp [hC] at eR
    · exfalso
      rw [if_pos hT1, if_neg (not_not.2 hT2)] at eR
      by_cases hC : h2.ContentType = [] <;> simp [hC] at eR
    · rw [if_pos hT1, if_pos hT2] at eR
      obtain ⟨eT, eC⟩ := List.first_cut_unique 34 _ _ _ _ t1 t2 (List.append_cancel_left eR)
      exact ⟨eT, cty_part_injective _ _ eC⟩
  cases h1
  cases h2
  simp only [Header.mk.injEq]
  exact ⟨eA, key.1, key.2⟩

/-- Two equal quote-free headers instantiate C16. -/
theorem header_encoding_injective_witness :
    (⟨ascii "RS256", ascii "JWT", ascii "foo"⟩ : Header) = ⟨ascii "RS256", ascii "JWT", ascii "foo"⟩ :=
  header_encoding_injective ⟨ascii "RS256", ascii "JWT", ascii "foo"⟩
    ⟨ascii "RS256", ascii "JWT", ascii "foo"⟩ (by decide) (by decide) (by decide) (by decide)
    (by decide) (by decide) (by decide)

/-! ## Memory: views and slices -/

/-- The contents of the slice a view denotes are the elements of the view. -/
theorem View.load_bytes (m : Heap) (v : View) (s : Slice) (h : v.load m = some s) :
    s.bytes = v.bytes m := by
  unfold View.load at h
  split at h
  · rename_i hv
    cases h
    show List.take v.len (List.take v.cap (List.drop v.off (m v.base))) = _
    rw [List.take_take, Nat.min_eq_left hv.1]
    rfl
  · cases h

/-- A slice expression on a view denotes the slice expression on the slice the
view denotes. -/
theorem View.slice_load (m : Heap) (v : View) (s : Slice) (low high : GoInt)
    (h : v.load m = some s) :
    (v.slice low.val high.val).bind (View.load m) = s.slice low high := by
  unfold View.load at h
  split at h
  swap
  · cases h
  rename_i hv
  cases h
  have hcap : (Slice.cap ⟨((m v.base).drop v.off).take v.cap, v.len,
      by rw [List.length_take, List.length_drop]; omega,
      by rw [List.length_take, List.length_drop]; omega⟩) = v.cap := by
    show (List.take v.cap (List.drop v.off (m v.base))).length = v.cap
    rw [List.length_take, List.length_drop]
    omega
  unfold View.slice Slice.slice
  by_cases hc : 0 ≤ low.val ∧ low.val ≤ high.val ∧ high.val ≤ (v.cap : Int)
  · rw [if_pos hc, dif_pos (by rw [hcap]; exact hc)]
    have hl : low.val.toNat ≤ v.cap := by omega
    have hin : (high.val - low.val).toNat ≤ v.cap - low.val.toNat ∧
        v.off + low.val.toNat + (v.cap - low.val.toNat) ≤ (m v.base).length ∧
        ((m v.base).length : Int) < 2 ^ 63 := ⟨by omega, by omega, hv.2.2⟩
    show View.load m _ = _
    unfold View.load
    rw [dif_pos hin]
    congr 2
    show List.take (v.cap - low.val.toNat) (List.drop (v.off + low.val.toNat) (m v.base))
      = List.drop low.val.toNat (List.take v.cap (List.drop v.off (m v.base)))
    rw [List.drop_take, List.drop_drop]
  · rw [if_neg hc, dif_neg (by rw [hcap]; exact hc)]
    rfl

/-- The accessors on the token in memory denote the accessors on the token it
denotes. -/
theorem TokenRef.load_accessors (m : Heap) (tr : TokenRef) (t : Token)
    (h : tr.load m = some t) :
    tr.Bytes.load m = some t.Bytes ∧ tr.Claims.load m = some t.Claims ∧
      tr.Signature.load m = some t.Signature ∧ tr.String m = t.String ∧
      tr.HeaderPart.bind (View.load m) = t.HeaderPart ∧
      tr.ClaimsPart.bind (View.load m) = t.ClaimsPart ∧
      tr.PayloadPart.bind (View.load m) = t.PayloadPart ∧
      tr.SignaturePart.bind (View.load m) = t.SignaturePart := by
  unfold TokenRef.load at h
  split at h
  swap
  · cases h
  rename_i r c s hr hc hs
  cases h
  have hlen : r.len = tr.raw.len := by
    unfold View.load at hr
    split at hr
    · cases hr; rfl
    · cases hr
  refine ⟨hr, hc, hs, (View.load_bytes m _ _ hr).symm, ?_, ?_, ?_, ?_⟩
  · exact View.slice_load m tr.raw r GoInt.zero tr.dot1 hr
  · exact View.slice_load m tr.raw r tr.dot1.succ tr.dot2 hr
  · exact View.slice_load m tr.raw r GoInt.zero tr.dot2 hr
  · have := View.slice_load m tr.raw r tr.dot2.succ r.lenInt hr
    have e : r.lenInt.val = (tr.raw.len : Int) := by
      show (r.len : Int) = _
      rw [hlen]
    rw [e] at this
    exact this

/-- A slice expression keeps the backing array. -/
theorem View.slice_base (v w : View) (low high : Int) (h : v.slice low high = some w) :
    w.base = v.base := by
  unfold View.slice at h
  split at h
  · cases h; rfl
  · cases h

/-- After `v[i] = x`, the elements of `v` are the former ones with `x` at
index `i`. -/
theorem View.bytes_assign_self (m m2 : Heap) (v : View) (i : Int) (x : Byte)
    (h : View.assign m v i x = some m2) : v.bytes m2 = (v.bytes m).set i.toNat x := by
  unfold View.assign at h
  split at h
  swap
  · cases h
  cases h
  unfold View.bytes
  rw [Function.update_same, ← List.set_take, List.set_drop]

/-- After `v[i] = x`, the elements of a view of another backing array are the
former ones. -/
theorem View.bytes_assign_other (m m2 : Heap) (v w : View) (i : Int) (x : Byte)
    (h : View.assign m v i x = some m2) (hb : w.base ≠ v.base) : w.bytes m2 = w.bytes m := by
  unfold View.assign at h
  split at h
  swap
  · cases h
  cases h
  unfold View.bytes
  rw [Function.update_noteq hb]

theorem View.length_elems (m : Heap) (v : View) (h : v.InHeap m) :
    (v.bytes m).length = v.len := by
  obtain ⟨h1, h2, _⟩ := h
  unfold View.bytes
  rw [List.length_take, List.length_drop]
  omega

/-- The elements of the result of an accessor built on `raw` are unchanged by a
write into another backing array. -/
theorem View.map_bytes_assign_other (m m2 : Heap) (v w : View) (r : Option View) (i : Int)
    (x : Byte) (low high : Int) (hr : r = v.slice low high)
    (h : View.assign m w i x = some m2) (hb : v.base ≠ w.base) :
    r.map (View.bytes m2) = r.map (View.bytes m) := by
  cases hc : r with
  | none => rfl
  | some u =>
    have hu : u.base = v.base := View.slice_base v u low high (by rw [← hr, hc])
    exact congrArg some (View.bytes_assign_other m m2 w u i x h (by rw [hu]; exact hb))

/-! ## Token: aliasing of the returned slices -/

/-- C12, as stated, fails: the returned slices are mutable aliases of the token's
buffers. On the token `ab.cd.ef`, after `b := t.Bytes(); b[0] = 'X'` later calls
of `Bytes()`, `String()` and `HeaderPart()` give `Xb.cd.ef`, `Xb.cd.ef` and `Xb`;
a write through `HeaderPart()` or `Claims()` is seen in the same way. -/
theorem returned_slices_are_aliases :
    (sampleTokenRef.Bytes.bytes sampleHeap = ascii "ab.cd.ef" ∧
        sampleTokenRef.HeaderPart.map (View.bytes sampleHeap) = some (ascii "ab") ∧
        sampleTokenRef.Claims.bytes sampleHeap = ascii "\x7b\x7d") ∧
      ((View.assign sampleHeap sampleTokenRef.Bytes 0 88).map
          (fun m => sampleTokenRef.Bytes.bytes m) = some (ascii "Xb.cd.ef") ∧
        (View.assign sampleHeap sampleTokenRef.Bytes 0 88).map
          (fun m => sampleTokenRef.String m) = some (ascii "Xb.cd.ef") ∧
        (View.assign sampleHeap sampleTokenRef.Bytes 0 88).map
          (fun m => sampleTokenRef.HeaderPart.map (View.bytes m)) = some (some (ascii "Xb"))) ∧
      ((sampleTokenRef.HeaderPart.bind (fun v => View.assign sampleHeap v 1 88)).map
          (fun m => sampleTokenRef.Bytes.bytes m) = some (ascii "aX.cd.ef") ∧
        (View.assign sampleHeap sampleTokenRef.Claims 0 88).map
          (fun m => sampleTokenRef.Claims.bytes m) = some (ascii "X\x7d")) ∧
      ¬ (∀ (m m2 : Heap) (t : TokenRef) (i : Int) (x : Byte),
          View.assign m t.Bytes i x = some m2 → t.Bytes.bytes m2 = t.Bytes.bytes m) := by
  refine ⟨by decide, by decide, by decide, fun h => ?_⟩
  have h1 := h sampleHeap _ sampleTokenRef 0 88 rfl
  revert h1
  decide

/-- C12, amended. The returned byte slices share the token's backing arrays: a
write `b[i] = x` through the value returned by `Bytes()`, `i` in range, puts `x`
at index `i` of what later `Bytes()` and `String()` calls return and changes no
other byte of it; a write into a backing array the token does not use changes no
later accessor result. -/
theorem write_through_bytes (m : Heap) (t : TokenRef) (i : Int) (x : Byte)
    (hin : t.raw.InHeap m) (h0 : 0 ≤ i) (hi : i < (t.raw.len : Int)) :
    (∃ m2, View.assign m t.Bytes i x = some m2 ∧
        t.Bytes.bytes m2 = (t.Bytes.bytes m).set i.toNat x ∧
        (t.Bytes.bytes m2).get? i.toNat = some x ∧
        t.String m2 = (t.String m).set i.toNat x) ∧
      (∀ (w : View) (j : Int) (y : Byte) (m2 : Heap), w.base ≠ t.raw.base →
        w.base ≠ t.claims.base → w.base ≠ t.signature.base →
        View.assign m w j y = some m2 →
        t.Bytes.bytes m2 = t.Bytes.bytes m ∧ t.String m2 = t.String m ∧
          t.Claims.bytes m2 = t.Claims.bytes m ∧ t.Signature.bytes m2 = t.Signature.bytes m ∧
          t.HeaderPart.map (View.bytes m2) = t.HeaderPart.map (View.bytes m) ∧
          t.ClaimsPart.map (View.bytes m2) = t.ClaimsPart.map (View.bytes m) ∧
          t.PayloadPart.map (View.bytes m2) = t.PayloadPart.map (View.bytes m) ∧
          t.SignaturePart.map (View.bytes m2) = t.SignaturePart.map (View.bytes m)) := by
  constructor
  · have ha : View.assign m t.Bytes i x
        = some (Function.update m t.raw.base ((m t.raw.base).set (t.raw.off + i.toNat) x)) :=
      if_pos ⟨h0, hi⟩
    have hb := View.bytes_assign_self m _ t.Bytes i x ha
    refine ⟨_, ha, hb, ?_, hb⟩
    rw [hb, List.get?_eq_getElem?, List.getElem?_set]
    have hl : (t.Bytes.bytes m).length = t.raw.len := View.length_elems m t.raw hin
    rw [if_pos rfl, if_pos (by omega)]
  · intro w j y m2 h1 h2 h3 ha
    have e1 := View.bytes_assign_other m m2 w t.raw j y ha (Ne.symm h1)
    exact ⟨e1, e1, View.bytes_assign_other m m2 w t.claims j y ha (Ne.symm h2),
      View.bytes_assign_other m m2 w t.signature j y ha (Ne.symm h3),
      View.map_bytes_assign_other m m2 t.raw w _ j y _ _ rfl ha (Ne.symm h1),
      View.map_bytes_assign_other m m2 t.raw w _ j y _ _ rfl ha (Ne.symm h1),
      View.map_bytes_assign_other m m2 t.raw w _ j y _ _ rfl ha (Ne.symm h1),
      View.map_bytes_assign_other m m2 t.raw w _ j y _ _ rfl ha (Ne.symm h1)⟩

/-- The token `ab.cd.ef` of the sample memory, written at index 0 through
`Bytes()`, instantiates the amended C12. -/
theorem write_through_bytes_witness :
    ∃ m2, View.assign sampleHeap sampleTokenRef.Bytes 0 88 = some m2 ∧
      sampleTokenRef.Bytes.bytes m2 = (sampleTokenRef.Bytes.bytes sampleHeap).set (0 : Int).toNat 88 ∧
      (sampleTokenRef.Bytes.bytes m2).get? (0 : Int).toNat = some 88 ∧
      sampleTokenRef.String m2 = (sampleTokenRef.String sampleHeap).set (0 : Int).toNat 88 :=
  (write_through_bytes sampleHeap sampleTokenRef 0 88 (by decide) (by decide) (by decide)).1

/-! ## DecodeClaims and the memory of the token -/

/-- The elements of a view depend on its backing array only. -/
theorem View.bytes_congr (m m2 : Heap) (v : View) (h : m2 v.base = m v.base) :
    v.bytes m2 = v.bytes m := by
  unfold View.bytes
  rw [h]

/-- The elements of the result of a slice expression on `v` depend on the backing
array of `v` only. -/
theorem View.map_bytes_congr (m m2 : Heap) (v : View) (r : Option View) (low high : Int)
    (hr : r = v.slice low high) (h : m2 v.base = m v.base) :
    r.map (View.bytes m2) = r.map (View.bytes m) := by
  cases hc : r with
  | none => rfl
  | some u =>
    have hu : u.base = v.base := View.slice_base v u low high (by rw [← hr, hc])
    exact congrArg some (View.bytes_congr m m2 u (by rw [hu]; exact h))

/-- The memory and the target after `DecodeClaims` are those the decode primitive
leaves; its error is `nil` exactly when the primitive's is. -/
theorem TokenRef.DecodeClaims_state {τ : Type}
    (unmarshal : List Byte → Heap → τ → Option GoError × (Heap × τ)) (m : Heap) (t : TokenRef)
    (into : τ) :
    (t.DecodeClaims unmarshal m into).2 = (unmarshal (t.claims.bytes m) m into).2 ∧
      (t.DecodeClaims unmarshal m into).1
        = (unmarshal (t.claims.bytes m) m into).1.map
            (errorfW (ascii "jwt: claims are not valid: ")) := by
  simp only [TokenRef.DecodeClaims]
  cases (unmarshal (t.claims.bytes m) m into).1 <;> exact ⟨rfl, rfl⟩

/-- With a decode primitive that does not use the memory, `DecodeClaims` on the
token in memory is `DecodeClaims` on the token it denotes. -/
theorem TokenRef.DecodeClaims_load {τ : Type} (decode : List Byte → τ → Option GoError × τ)
    (m : Heap) (tr : TokenRef) (t : Token) (into : τ) (h : tr.load m = some t) :
    tr.DecodeClaims (fun d m0 x => ((decode d x).1, (m0, (decode d x).2))) m into
      = ((t.DecodeClaims decode into).1, (m, (t.DecodeClaims decode into).2)) := by
  have hc : t.claims.bytes = tr.claims.bytes m :=
    View.load_bytes m tr.claims t.claims (tr.load_accessors m t h).2.1
  simp only [TokenRef.DecodeClaims, Token.DecodeClaims, hc]
  cases (decode (tr.claims.bytes m) into).1 <;> rfl

theorem sampleUnmarshalBytes_writes_target_only :
    WritesTargetOnly sampleUnmarshalBytes (fun b a => a = b.base) := by
  intro d m b a ha
  unfold sampleUnmarshalBytes
  split
  · exact Function.update_noteq ha _ _
  · rfl

theorem sampleUnmarshalBytes_outcome : OutcomeFromInput sampleUnmarshalBytes := by
  intro d m1 m2 b
  unfold sampleUnmarshalBytes
  split <;> exact ⟨rfl, rfl⟩

/-- C11, as stated, fails for a target that shares memory with the token. On the
token `ab.cd.ef` with claims `[88,89]`, `b := t.Bytes(); t.DecodeClaims(&b)`
succeeds and decodes into the raw buffer: later `String()`, `Bytes()` and
`HeaderPart()` give `XY.cd.ef`, `XY.cd.ef` and `XY`. With `c := t.Claims()` as the
target the claims become `XY8,89]`, and the call repeated with an equal target
fails where the first one succeeded. -/
theorem decode_claims_through_alias :
    (arrayTokenRef.String arrayHeap = ascii "ab.cd.ef" ∧
        arrayTokenRef.HeaderPart.map (View.bytes arrayHeap) = some (ascii "ab") ∧
        arrayTokenRef.Claims.bytes arrayHeap = ascii "[88,89]") ∧
      ((arrayTokenRef.DecodeClaims sampleUnmarshalBytes arrayHeap arrayTokenRef.Bytes).1 = none ∧
        arrayTokenRef.String
            (arrayTokenRef.DecodeClaims sampleUnmarshalBytes arrayHeap arrayTokenRef.Bytes).2.1
          = ascii "XY.cd.ef" ∧
        arrayTokenRef.Bytes.bytes
            (arrayTokenRef.DecodeClaims sampleUnmarshalBytes arrayHeap arrayTokenRef.Bytes).2.1
          = ascii "XY.cd.ef" ∧
        arrayTokenRef.HeaderPart.map (View.bytes
            (arrayTokenRef.DecodeClaims sampleUnmarshalBytes arrayHeap arrayTokenRef.Bytes).2.1)
          = some (ascii "XY")) ∧
      ((arrayTokenRef.DecodeClaims sampleUnmarshalBytes arrayHeap arrayTokenRef.Claims).1 = none ∧
        arrayTokenRef.Claims.bytes
            (arrayTokenRef.DecodeClaims sampleUnmarshalBytes arrayHeap arrayTokenRef.Claims).2.1
          = ascii "XY8,89]" ∧
        (arrayTokenRef.DecodeClaims sampleUnmarshalBytes
            (arrayTokenRef.DecodeClaims sampleUnmarshalBytes arrayHeap arrayTokenRef.Claims).2.1
            arrayTokenRef.Claims).1
          = some (errorfW (ascii "jwt: claims are not valid: ")
              (GoError.leaf (ascii "invalid character")))) := by
  decide

/-- C11, amended. When the decode primitive writes no memory but that of its target
and its outcome is determined by the claims bytes and the target, and the target
shares no backing array with `raw`, `claims` and `signature` of the token: after
`t.DecodeClaims(target)`, success or failure, every accessor returns the same bytes
as before, and the call repeated with the same primitive and an equal fresh target
has the same outcome. -/
theorem decode_claims_preserves_token {τ : Type}
    (unmarshal : List Byte → Heap → τ → Option GoError × (Heap × τ)) (owns : τ → Nat → Prop)
    (hw : WritesTargetOnly unmarshal owns) (ho : OutcomeFromInput unmarshal)
    (m : Heap) (t : TokenRef) (into : τ)
    (h1 : ¬ owns into t.raw.base) (h2 : ¬ owns into t.claims.base)
    (h3 : ¬ owns into t.signature.base) :
    (t.String (t.DecodeClaims unmarshal m into).2.1 = t.String m ∧
        t.Bytes.bytes (t.DecodeClaims unmarshal m into).2.1 = t.Bytes.bytes m ∧
        t.Claims.bytes (t.DecodeClaims unmarshal m into).2.1 = t.Claims.bytes m ∧
        t.Signature.bytes (t.DecodeClaims unmarshal m into).2.1 = t.Signature.bytes m ∧
        t.HeaderPart.map (View.bytes (t.DecodeClaims unmarshal m into).2.1)
          = t.HeaderPart.map (View.bytes m) ∧
        t.ClaimsPart.map (View.bytes (t.DecodeClaims unmarshal m into).2.1)
          = t.ClaimsPart.map (View.bytes m) ∧
        t.PayloadPart.map (View.bytes (t.DecodeClaims unmarshal m into).2.1)
          = t.PayloadPart.map (View.bytes m) ∧
        t.SignaturePart.map (View.bytes (t.DecodeClaims unmarshal m into).2.1)
          = t.SignaturePart.map (View.bytes m)) ∧
      (t.DecodeClaims unmarshal (t.DecodeClaims unmarshal m into).2.1 into).1
        = (t.DecodeClaims unmarshal m into).1 ∧
      (t.DecodeClaims unmarshal (t.DecodeClaims unmarshal m into).2.1 into).2.2
        = (t.DecodeClaims unmarshal m into).2.2 := by
  have hm : (t.DecodeClaims unmarshal m into).2.1 = (unmarshal (t.claims.bytes m) m into).2.1 :=
    congrArg Prod.fst (t.DecodeClaims_state unmarshal m into).1
  generalize (t.DecodeClaims unmarshal m into).2.1 = m1 at hm
  have e1 : m1 t.raw.base = m t.raw.base := by rw [hm]; exact hw _ _ _ _ h1
  have e2 : m1 t.claims.base = m t.claims.base := by rw [hm]; exact hw _ _ _ _ h2
  have e3 : m1 t.signature.base = m t.signature.base := by rw [hm]; exact hw _ _ _ _ h3
  have b1 : t.raw.bytes m1 = t.raw.bytes m := View.bytes_congr m m1 t.raw e1
  have b2 : t.claims.bytes m1 = t.claims.bytes m := View.bytes_congr m m1 t.claims e2
  refine ⟨⟨b1, b1, b2, View.bytes_congr m m1 t.signature e3,
    View.map_bytes_congr m m1 t.raw _ _ _ rfl e1, View.map_bytes_congr m m1 t.raw _ _ _ rfl e1,
    View.map_bytes_congr m m1 t.raw _ _ _ rfl e1, View.map_bytes_congr m m1 t.raw _ _ _ rfl e1⟩,
    ?_, ?_⟩
  · rw [(t.DecodeClaims_state unmarshal m1 into).2, (t.DecodeClaims_state unmarshal m into).2,
      b2, (ho (t.claims.bytes m) m1 m into).1]
  · have s1 := congrArg Prod.snd (t.DecodeClaims_state unmarshal m1 into).1
    have s2 := congrArg Prod.snd (t.DecodeClaims_state unmarshal m into).1
    rw [s1, s2, b2, (ho (t.claims.bytes m) m1 m into).2]

/-- The token `ab.cd.ef` with claims `[88,89]`, decoded into a buffer of the caller
at another address, instantiates the amended C11. -/
theorem decode_claims_preserves_token_witness :
    (arrayTokenRef.String
          (arrayTokenRef.DecodeClaims sampleUnmarshalBytes arrayHeap ⟨3, 0, 0, 4⟩).2.1
        = arrayTokenRef.String arrayHeap ∧
      arrayTokenRef.Claims.bytes
          (arrayTokenRef.DecodeClaims sampleUnmarshalBytes arrayHeap ⟨3, 0, 0, 4⟩).2.1
        = arrayTokenRef.Claims.bytes arrayHeap) ∧
      (arrayTokenRef.DecodeClaims sampleUnmarshalBytes arrayHeap ⟨3, 0, 0, 4⟩).1 = none ∧
      (arrayTokenRef.DecodeClaims sampleUnmarshalBytes
          (arrayTokenRef.DecodeClaims sampleUnmarshalBytes arrayHeap ⟨3, 0, 0, 4⟩).2.1
          ⟨3, 0, 0, 4⟩).1
        = (arrayTokenRef.DecodeClaims sampleUnmarshalBytes arrayHeap ⟨3, 0, 0, 4⟩).1 :=
  have w := decode_claims_preserves_token sampleUnmarshalBytes (fun b a => a = b.base)
    sampleUnmarshalBytes_writes_target_only sampleUnmarshalBytes_outcome arrayHeap arrayTokenRef
    ⟨3, 0, 0, 4⟩ (by decide) (by decide) (by decide)
  ⟨⟨w.1.1, w.1.2.2.1⟩, by decide, w.2.1⟩

end Jwt
